import Mathlib

/-!
# Verification of the phoebusalarm alarm-configuration translator

A shallow embedding, in Lean 4, of the core data structures and operations of
the `phoebusalarm` python package (alarm tree, alarm filter, alh parser),
together with theorems settling a list of claims about the package.

Conventions of the embedding:
* python `dict` (insertion ordered) becomes an association list
  `List (Key × Value)`; assignment to an existing key updates in place,
  assignment to a fresh key appends, `pop` removes the entry.
* python exceptions become `Except`; every modelled operation raises before it
  mutates, so an `error` result faithfully means "state unchanged" wherever the
  claims exercise an error path.
* python `float` is modelled by `Rat` (the claims never exercise binary
  rounding); unbounded recursion is modelled with an explicit fuel argument
  that is proved (or chosen) sufficient.
* strings are processed on their `List Char` representation.
-/

namespace Phoebus

/-! ## Python-style dynamic numeric values

`AlarmFilter.value` and the channel attributes `count`/`delay` hold, at
run time, either an `int`, a `float` or the boolean `True` (plus raw strings
in `count`/`delay`, see `PyScalar` below).  `PyVal` models the numeric ones. -/

inductive PyVal where
  | int (n : Int)
  | float (q : Rat)
  | tru
  deriving DecidableEq, Repr

/-- Fractional decimal digits of `r / d`, most significant first (fuel bounded). -/
def fracDigits : Nat → Nat → Nat → List Char
  | 0, _, _ => []
  | _ + 1, 0, _ => []
  | fuel + 1, r, d => Char.ofNat (48 + (r * 10) / d) :: fracDigits fuel ((r * 10) % d) d

/-- Rendering of a python `float` as by `str()`.  This is an approximation of
CPython's shortest-roundtrip rendering, exact on the short terminating
decimals that occur in alh files; no claim evaluates it. -/
def pyFloatStr (q : Rat) : String :=
  let sign := if q < 0 then "-" else ""
  let n := q.num.natAbs
  let d := q.den
  let ds := fracDigits 17 (n % d) d
  let ds := (ds.reverse.dropWhile (fun c => c == '0')).reverse
  let frac := if ds.isEmpty then "0" else String.mk ds
  sign ++ toString (n / d) ++ "." ++ frac

/-- `str(int(v)) if isinstance(v, bool) else str(v)`, as used by
`AlarmFilter.get_alh_force` when formatting the value. -/
def pyValStrAlh : PyVal → String
  | .tru => "1"
  | .int n => toString n
  | .float q => pyFloatStr q

/-- `str(v)` as used by `AlarmFilter.get_phoebus_filter` when formatting the
value (never reached for the boolean shortcut, whose format string has no
value placeholder). -/
def pyValStrPhoebus : PyVal → String
  | .tru => "True"
  | .int n => toString n
  | .float q => pyFloatStr q

/-- `v in (0, 1)` (python numeric equality; `True == 1`). -/
def pyValIn01 : PyVal → Bool
  | .tru => true
  | .int n => n == 0 || n == 1
  | .float q => q == 0 || q == 1

/-- `bool(v)`. -/
def pyValBool : PyVal → Bool
  | .tru => true
  | .int n => n != 0
  | .float q => q != 0

/-! ## alh_export.make_mask -/

/-- `alh_export.make_mask`: five mask letters; `C`/`D` when not enabled,
`T` when not latching. -/
def make_mask (enabled latch : Bool) : String :=
  String.mk [if enabled then '-' else 'C',
             if enabled then '-' else 'D',
             '-',
             if latch then '-' else 'T',
             '-']

/-! ## alarmfilter.AlarmFilter -/

/-- `alarmfilter.AlarmFilter`: one FORCEPV / filter condition.  The
`replacements` dict with keys `"A"`..`"F"` is modelled by six string fields
(python defaults: `value=1`, slots `""`, `enabling=True`). -/
structure AlarmFilter where
  expr : String
  value : PyVal
  A : String
  B : String
  C : String
  D : String
  E : String
  F : String
  enabling : Bool
  deriving DecidableEq, Repr

namespace AlarmFilter

/-- `self.replacements` in dict (insertion = alphabetical) order, which is
also the order produced by `sorted(self.replacements.items())`. -/
def replacementsList (f : AlarmFilter) : List (String × String) :=
  [("A", f.A), ("B", f.B), ("C", f.C), ("D", f.D), ("E", f.E), ("F", f.F)]

/-- `any(self.replacements.values())`. -/
def hasRepl (f : AlarmFilter) : Bool :=
  (replacementsList f).any (fun kv => kv.2 != "")

/-- `AlarmFilter.get_alh_force`: the filter as a list of alh `$FORCEPV` lines.
Multi-symbol (CALC) form when any replacement slot is populated, otherwise
the single-PV form. -/
def get_alh_force (f : AlarmFilter) (latch : Bool) : List String :=
  let forceMask := make_mask f.enabling latch
  let value := pyValStrAlh f.value
  if hasRepl f then
    ["$FORCEPV CALC " ++ forceMask ++ " " ++ value ++ " NE",
     "$FORCEPV_CALC " ++ f.expr] ++
    ((replacementsList f).filter (fun kv => kv.2 != "")).map
      (fun kv => "$FORCEPV_CALC_" ++ kv.1 ++ " " ++ kv.2)
  else
    ["$FORCEPV " ++ f.expr ++ " " ++ forceMask ++ " " ++ value ++ " NE"]

/-- Fuel-bounded scanner for `subEq` (structural recursion on the fuel, which
`subEq` instantiates with the length of the input, always sufficient since
every step consumes at least one input character). -/
def subEqF : Nat → List Char → List Char
  | 0, l => l
  | fuel + 1, a :: '=' :: b :: rest =>
    if a ≠ '=' ∧ a ≠ '!' ∧ b ≠ '=' then
      a :: ' ' :: '=' :: '=' :: ' ' :: b :: subEqF fuel rest
    else
      a :: subEqF fuel ('=' :: b :: rest)
  | _ + 1, [a] => [a]
  | fuel + 1, a :: rest => a :: subEqF fuel rest
  | _ + 1, [] => []

/-- `re.sub(r"([^=!])=([^=])", r"\1 == \2", s)`: a bare `=` (not preceded by
`=`/`!`, not followed by `=`) becomes ` == `; left-to-right, non-overlapping. -/
def subEq (l : List Char) : List Char :=
  subEqF l.length l

/-- `s.replace("#", " != ")`. -/
def subNe (l : List Char) : List Char :=
  l.flatMap (fun c => if c = '#' then [' ', '!', '=', ' '] else [c])

/-- One pass of `s.replace(letter, "{letter}")` (single-character pattern,
insertions are not rescanned). -/
def protectLetter (c : Char) (l : List Char) : List Char :=
  l.flatMap (fun x => if x = c then ['\x7b', c, '\x7d'] else [x])

/-- The six successive `expr.replace(letter, "{letter}")` passes for the
letters A..F.  Later passes never match inside earlier insertions. -/
def protect (l : List Char) : List Char :=
  protectLetter 'F' (protectLetter 'E' (protectLetter 'D' (protectLetter 'C'
    (protectLetter 'B' (protectLetter 'A' l)))))

/-- Fuel-bounded scanner for `pyFormat` (structural recursion on the fuel;
every step consumes exactly one input character, so the input length is
always enough fuel).  The second argument is `none` while scanning plain
text and `some revName` while inside a placeholder, accumulating the
reversed placeholder name. -/
def pyFormatF : Nat → Option (List Char) → List Char → List (String × String) → List Char
  | 0, _, l, _ => l
  | _ + 1, none, [], _ => []
  | fuel + 1, none, '\x7b' :: rest, assigns => pyFormatF fuel (some []) rest assigns
  | fuel + 1, none, c :: rest, assigns => c :: pyFormatF fuel none rest assigns
  | _ + 1, some name, [], _ => '\x7b' :: name.reverse
  | fuel + 1, some name, '\x7d' :: rest, assigns =>
    (match assigns.find? (fun kv => kv.1.data == name.reverse) with
     | some kv => kv.2.data ++ pyFormatF fuel none rest assigns
     | none => '\x7b' :: (name.reverse ++ '\x7d' :: pyFormatF fuel none rest assigns))
  | fuel + 1, some name, c :: rest, assigns => pyFormatF fuel (some (c :: name)) rest assigns

/-- `str.format` with keyword arguments: every `\x7bname\x7d` placeholder is
replaced by its assignment; substituted values are not rescanned.  (Python
raises on a brace that does not form a known placeholder; the model keeps
such characters, a difference no claim exercises.) -/
def pyFormat (l : List Char) (assigns : List (String × String)) : List Char :=
  pyFormatF l.length none l assigns

/-- `expr.format(**self.replacements)` after the protection passes. -/
def formatRepl (f : AlarmFilter) (l : List Char) : List Char :=
  pyFormat l (replacementsList f)

/-- `fmtString.replace("(", "").replace(")", "")`. -/
def stripParens (l : List Char) : List Char :=
  l.filter (fun c => c ≠ '(' && c ≠ ')')

/-- `AlarmFilter.get_phoebus_filter`: the filter as a phoebus filter string.
Rewrites alh comparison tokens, chooses the format string from the polarity
and the boolean-shortcut value, substitutes the replacement slots (protect
then format) when any is populated, otherwise strips the parentheses from the
format string. -/
def get_phoebus_filter (f : AlarmFilter) : String :=
  let expr := subNe (subEq f.expr.data)
  let fmtString :=
    if f.enabling then "(\x7bexpr\x7d) == \x7bval\x7d" else "(\x7bexpr\x7d) != \x7bval\x7d"
  let fmtString :=
    if f.value = .tru then
      (if f.enabling then "\x7bexpr\x7d" else "!(\x7bexpr\x7d)")
    else fmtString
  if hasRepl f then
    let expr := formatRepl f (protect expr)
    String.mk (pyFormat fmtString.data
      [("expr", String.mk expr), ("val", pyValStrPhoebus f.value)])
  else
    String.mk (pyFormat (stripParens fmtString.data)
      [("expr", String.mk expr), ("val", pyValStrPhoebus f.value)])

/-- The comparison-rewritten expression (before slot substitution). -/
def rewrittenExpr (f : AlarmFilter) : String :=
  String.mk (subNe (subEq f.expr.data))

/-- The comparison-rewritten, slot-substituted expression. -/
def substitutedExpr (f : AlarmFilter) : String :=
  String.mk (formatRepl f (protect (subNe (subEq f.expr.data))))

end AlarmFilter

/-! ## The alarm-tree node variants (alarmnodes.py)

python objects carry attributes dynamically; attributes that only some code
paths create (`filter`, `enabled`, `count`, `delay` on groups and on the root
`BaseNode`) are modelled as `Option` fields, `none` meaning "attribute absent"
(reading it raises `AttributeError`). -/

/-- A `count`/`delay` attribute value: an int at construction, but the alh
parser assigns the raw string fields. -/
inductive PyScalar where
  | num (v : PyVal)
  | str (s : String)
  deriving DecidableEq, Repr

/-- namedtuple `guidance (title, details)`. -/
structure Guidance where
  title : String
  details : String
  deriving DecidableEq, Repr

/-- namedtuple `display (title, details)`. -/
structure Display where
  title : String
  details : String
  deriving DecidableEq, Repr

/-- namedtuple `command (title, details)`. -/
structure Command where
  title : String
  details : String
  deriving DecidableEq, Repr

/-- namedtuple `automated_action (title, details, delay)`. -/
structure AutoAction where
  title : String
  details : String
  delay : Int
  deriving DecidableEq, Repr

/-- The `filter` attribute of a node: either a raw string (`""` when unset)
or an `AlarmFilter` object.  python truthiness: `""` is falsy. -/
inductive FilterVal where
  | str (s : String)
  | obj (f : AlarmFilter)
  deriving DecidableEq, Repr

/-- python truthiness of a `filter` attribute. -/
def FilterVal.truthy : FilterVal → Bool
  | .str s => s != ""
  | .obj _ => true

/-- Dynamic attributes a bare `BaseNode` (the tree root) may acquire. -/
structure BaseData where
  filter : Option FilterVal
  enabled : Option Bool
  count : Option PyScalar
  delay : Option PyScalar
  deriving DecidableEq, Repr

/-- `AlarmNode` (a group): `_name` plus the four attachment lists, plus the
dynamic attributes the parser may create. -/
structure GroupData where
  name : String
  guidances : List Guidance
  commands : List Command
  displays : List Display
  actions : List AutoAction
  filter : Option FilterVal
  enabled : Option Bool
  count : Option PyScalar
  delay : Option PyScalar
  deriving DecidableEq, Repr

/-- `AlarmPV` (a channel): `AlarmNode` data plus the channel attributes,
(python defaults `desc=""`, `enabled=latch=annunciate=True`, `delay=count=0`,
`filter=""`). -/
structure PVData where
  name : String
  desc : String
  enabled : Bool
  latch : Bool
  annunciate : Bool
  delay : PyScalar
  count : PyScalar
  filter : FilterVal
  guidances : List Guidance
  commands : List Command
  displays : List Display
  actions : List AutoAction
  deriving DecidableEq, Repr

/-- `InclusionMarker`. -/
structure InclusionData where
  filename : String
  deriving DecidableEq, Repr

/-- The node variants. -/
inductive ANodeKind where
  | base (b : BaseData)
  | group (g : GroupData)
  | pv (p : PVData)
  | inclusion (i : InclusionData)
  deriving DecidableEq, Repr

/-- A node of the alarm tree: the `BaseNode` attributes common to all
variants (`_id`, `tag`, `sortKey`) plus the variant data.  `sortKey` is
numeric in the source (`float(newKey)`); the claims only compare it, so it is
modelled as `Int`. -/
structure ANode where
  identifier : String
  tag : String
  sortKey : Int
  kind : ANodeKind
  deriving DecidableEq, Repr

namespace ANode

/-- Fresh `BaseData` with no dynamic attributes. -/
def emptyBase : BaseData := ⟨none, none, none, none⟩

/-- `BaseNode(tag=t, identifier=i)` (with a tag supplied, as the tree root is
created). -/
def baseNode (identifier tag : String) (sortKey : Int) : ANode :=
  ⟨identifier, tag, sortKey, .base emptyBase⟩

/-- Reading `node.filter`; `none` models `AttributeError`. -/
def getFilter : ANode → Option FilterVal
  | ⟨_, _, _, .base b⟩ => b.filter
  | ⟨_, _, _, .group g⟩ => g.filter
  | ⟨_, _, _, .pv p⟩ => some p.filter
  | ⟨_, _, _, .inclusion _⟩ => none

/-- Writing `node.filter` (attribute assignment always succeeds in python;
an inclusion marker is never the current node, so that arm is immaterial). -/
def setFilter (n : ANode) (fv : FilterVal) : ANode :=
  match n.kind with
  | .base b => { n with kind := .base { b with filter := some fv } }
  | .group g => { n with kind := .group { g with filter := some fv } }
  | .pv p => { n with kind := .pv { p with filter := fv } }
  | .inclusion i => { n with kind := .inclusion i }

/-- Reading `node.enabled`; `none` models `AttributeError`. -/
def getEnabled : ANode → Option Bool
  | ⟨_, _, _, .base b⟩ => b.enabled
  | ⟨_, _, _, .group g⟩ => g.enabled
  | ⟨_, _, _, .pv p⟩ => some p.enabled
  | ⟨_, _, _, .inclusion _⟩ => none

/-- Writing `node.enabled`. -/
def setEnabled (n : ANode) (b : Bool) : ANode :=
  match n.kind with
  | .base bd => { n with kind := .base { bd with enabled := some b } }
  | .group g => { n with kind := .group { g with enabled := some b } }
  | .pv p => { n with kind := .pv { p with enabled := b } }
  | .inclusion i => { n with kind := .inclusion i }

/-- Writing `node.latch` (the parser only ever does this on an `AlarmPV`;
on other classes python would create an unread dynamic attribute, which the
model drops). -/
def setLatch (n : ANode) (b : Bool) : ANode :=
  match n.kind with
  | .pv p => { n with kind := .pv { p with latch := b } }
  | k => { n with kind := k }

/-- Writing `node.desc` (only an `AlarmPV` has a description; the parser
only does this on an `AlarmPV`). -/
def setDesc (n : ANode) (s : String) : ANode :=
  match n.kind with
  | .pv p => { n with kind := .pv { p with desc := s } }
  | k => { n with kind := k }

/-- Writing `node.count`. -/
def setCount (n : ANode) (v : PyScalar) : ANode :=
  match n.kind with
  | .base bd => { n with kind := .base { bd with count := some v } }
  | .group g => { n with kind := .group { g with count := some v } }
  | .pv p => { n with kind := .pv { p with count := v } }
  | .inclusion i => { n with kind := .inclusion i }

/-- Writing `node.delay`. -/
def setDelay (n : ANode) (v : PyScalar) : ANode :=
  match n.kind with
  | .base bd => { n with kind := .base { bd with delay := some v } }
  | .group g => { n with kind := .group { g with delay := some v } }
  | .pv p => { n with kind := .pv { p with delay := v } }
  | .inclusion i => { n with kind := .inclusion i }

/-- Reading `node._name`; `none` models `AttributeError` (only `AlarmNode`
and `AlarmPV` have a name). -/
def getName : ANode → Option String
  | ⟨_, _, _, .group g⟩ => some g.name
  | ⟨_, _, _, .pv p⟩ => some p.name
  | _ => none

/-- `node.add_guidance(title, details)`; `none` models `AttributeError` on a
node class without the method. -/
def add_guidance (n : ANode) (title details : String) : Option ANode :=
  match n.kind with
  | .group g => some { n with kind := .group { g with guidances := g.guidances ++ [⟨title, details⟩] } }
  | .pv p => some { n with kind := .pv { p with guidances := p.guidances ++ [⟨title, details⟩] } }
  | _ => none

/-- `node.add_command(title, details)`. -/
def add_command (n : ANode) (title details : String) : Option ANode :=
  match n.kind with
  | .group g => some { n with kind := .group { g with commands := g.commands ++ [⟨title, details⟩] } }
  | .pv p => some { n with kind := .pv { p with commands := p.commands ++ [⟨title, details⟩] } }
  | _ => none

/-- `node.add_display(title, path)` with `macros=None` (the parser's only
use): the url is the path unchanged. -/
def add_display (n : ANode) (title path : String) : Option ANode :=
  match n.kind with
  | .group g => some { n with kind := .group { g with displays := g.displays ++ [⟨title, path⟩] } }
  | .pv p => some { n with kind := .pv { p with displays := p.displays ++ [⟨title, path⟩] } }
  | _ => none

/-- `node.add_auto_action(title, delay, command)`: appends
`(title, "cmd:" + command, delay)`. -/
def add_auto_action (n : ANode) (title : String) (delay : Int) (command : String) : Option ANode :=
  match n.kind with
  | .group g => some { n with kind := .group { g with actions := g.actions ++ [⟨title, "cmd:" ++ command, delay⟩] } }
  | .pv p => some { n with kind := .pv { p with actions := p.actions ++ [⟨title, "cmd:" ++ command, delay⟩] } }
  | _ => none

/-- `node.add_sevr_pv(pv)` (default title `"Severity PV"`): appends
`(title, "sevrpv:" + pv, 0)`. -/
def add_sevr_pv (n : ANode) (pv : String) : Option ANode :=
  match n.kind with
  | .group g => some { n with kind := .group { g with actions := g.actions ++ [⟨"Severity PV", "sevrpv:" ++ pv, 0⟩] } }
  | .pv p => some { n with kind := .pv { p with actions := p.actions ++ [⟨"Severity PV", "sevrpv:" ++ pv, 0⟩] } }
  | _ => none

/-- The actions list of a node (empty when the class has none). -/
def actionsOf : ANode → List AutoAction
  | ⟨_, _, _, .group g⟩ => g.actions
  | ⟨_, _, _, .pv p⟩ => p.actions
  | _ => []

end ANode

/-! ## The alarm tree (alarmtree.py)

`AlarmTree.nodes` is a python dict `id -> TreeEntry(node, parentId, children)`
modelled as an insertion-ordered association list. -/

/-- namedtuple `TreeEntry (node, parentId, children)`. -/
structure TreeEntry where
  node : ANode
  parentId : Option String
  children : List String
  deriving DecidableEq, Repr

/-- The association list modelling the `nodes` dict. -/
abbrev NodeList := List (String × TreeEntry)

/-- `self.nodes[k]`, as an `Option`. -/
def lookupNode (l : NodeList) (k : String) : Option TreeEntry :=
  (l.find? (fun kv => kv.1 == k)).map (fun kv => kv.2)

/-- Assignment `self.nodes[k] = e` to an existing key (keeps the position). -/
def setKey (l : NodeList) (k : String) (e : TreeEntry) : NodeList :=
  l.map (fun kv => if kv.1 == k then (k, e) else kv)

/-- `self.nodes.pop(k)` (order of the remaining entries preserved). -/
def eraseKey (l : NodeList) (k : String) : NodeList :=
  l.filter (fun kv => kv.1 != k)

/-- The keys of the dict, in insertion order. -/
def keysOf (l : NodeList) : List String :=
  l.map (fun kv => kv.1)

/-- The python exceptions the modelled code can raise. -/
inductive Err where
  | dup (id : String)
  | rootTaken
  | missingParent (id : String)
  | keyError (id : String)
  | rootRemoval
  | valueErr
  | attrErr
  | typeErr
  | idxErr
  | noTerm
  deriving DecidableEq, Repr

/-- `AlarmTree`: the nodes dict and the root id. -/
structure AlarmTree where
  nodes : NodeList
  root : Option String
  deriving DecidableEq, Repr

namespace AlarmTree

/-- `AlarmTree(configName)`: the result of `add_node(BaseNode(tag=configName,
identifier=configName), None)` on the empty tree, which always succeeds and
produces exactly this tree. -/
def init (configName : String) : AlarmTree :=
  { nodes := [(configName, ⟨ANode.baseNode configName configName 0, none, []⟩)],
    root := some configName }

/-- `AlarmTree.add_node(node, parent)`: duplicate check first, then root/
parent checks, then append the entry and register it with the parent — so on
`error` nothing was mutated, as in the source where the raises all precede
the mutation. -/
def add_node (t : AlarmTree) (node : ANode) (parent : Option String) : Except Err AlarmTree :=
  if (lookupNode t.nodes node.identifier).isSome then
    .error (.dup node.identifier)
  else
    match parent with
    | none =>
      match t.root with
      | some _ => .error .rootTaken
      | none => .ok { nodes := t.nodes ++ [(node.identifier, ⟨node, none, []⟩)],
                      root := some node.identifier }
    | some pid =>
      match lookupNode t.nodes pid with
      | none => .error (.missingParent pid)
      | some pe =>
        .ok { nodes := setKey (t.nodes ++ [(node.identifier, ⟨node, some pid, []⟩)]) pid
                ⟨pe.node, pe.parentId, pe.children ++ [node.identifier]⟩,
              root := t.root }

/-- `AlarmTree.create_node(name, parent, tag, sortKey)`: an `AlarmNode` whose
identifier is the parent identifier, a `/`, and the name. -/
def create_node (t : AlarmTree) (name : String) (parent : Option String)
    (tag : Option String) (sortKey : Int) : Except Err (AlarmTree × ANode) :=
  let pid := match parent with
    | none => t.root
    | some p => some p
  match pid with
  | none => .error .typeErr
  | some pid =>
    let identifier := pid ++ "/" ++ name
    let node : ANode :=
      { identifier := identifier, tag := tag.getD name, sortKey := sortKey,
        kind := .group
          { name := name, guidances := [], commands := [], displays := [], actions := [],
            filter := none, enabled := none, count := none, delay := none } }
    (add_node t node (some pid)).map (fun t2 => (t2, node))

/-- `AlarmTree.create_alarm(channelPV, parent, sortKey)`: an `AlarmPV` whose
identifier is the bare PV name (`AlarmPV.__init__` passes
`identifier=channelPV`). -/
def create_alarm (t : AlarmTree) (channelPV : String) (parent : Option String)
    (sortKey : Int) : Except Err (AlarmTree × ANode) :=
  let parent := match parent with
    | none => t.root
    | some p => some p
  let node : ANode :=
    { identifier := channelPV, tag := channelPV, sortKey := sortKey,
      kind := .pv
        { name := channelPV, desc := "", enabled := true, latch := true, annunciate := true,
          delay := .num (.int 0), count := .num (.int 0), filter := .str "",
          guidances := [], commands := [], displays := [], actions := [] } }
  (add_node t node parent).map (fun t2 => (t2, node))

/-- `AlarmTree.create_inclusion(filename, parent, sortKey)`.  The source lets
`uuid.uuid1()` choose the identifier; the model takes the fresh identifier as
the `freshId` argument (the parser supplies a counter-generated one). -/
def create_inclusion (t : AlarmTree) (filename freshId : String) (parent : Option String)
    (sortKey : Int) : Except Err (AlarmTree × ANode) :=
  let parent := match parent with
    | none => t.root
    | some p => some p
  let node : ANode := { identifier := freshId, tag := freshId, sortKey := sortKey,
                        kind := .inclusion ⟨filename⟩ }
  (add_node t node parent).map (fun t2 => (t2, node))

/-- `AlarmTree.get_node(nid)` for a non-`None` id. -/
def get_node (t : AlarmTree) (nid : String) : Except Err ANode :=
  match lookupNode t.nodes nid with
  | none => .error (.keyError nid)
  | some e => .ok e.node

/-- `AlarmTree.children(parent)`: the child nodes **in stored (insertion)
order** — the method does not sort. -/
def children (t : AlarmTree) (nid : String) : Except Err (List ANode) :=
  match lookupNode t.nodes nid with
  | none => .error (.keyError nid)
  | some e => e.children.mapM (fun cid =>
      match lookupNode t.nodes cid with
      | some ce => .ok ce.node
      | none => .error (.keyError cid))

/-- The child ordering used by the serializers `get_element_tree` and
`get_alh_lines`: `sorted(self.children(id), key=attrgetter("sortKey"))` —
a stable ascending sort by `sortKey` (python `sorted` is stable; modelled by
the stable `List.insertionSort`). -/
def sorted_children (t : AlarmTree) (nid : String) : Except Err (List ANode) :=
  (children t nid).map (fun l =>
    l.insertionSort (fun a b => a.sortKey ≤ b.sortKey))

/-- `AlarmTree.is_leaf(node)`. -/
def is_leaf (t : AlarmTree) (nid : String) : Except Err Bool :=
  match lookupNode t.nodes nid with
  | none => .error (.keyError nid)
  | some e => .ok e.children.isEmpty

/-- `AlarmTree.parent(node)`: the parent node, or `none` for the root. -/
def parent (t : AlarmTree) (nid : String) : Except Err (Option ANode) :=
  match lookupNode t.nodes nid with
  | none => .error (.keyError nid)
  | some e =>
    match e.parentId with
    | none => .ok none
    | some pid =>
      match lookupNode t.nodes pid with
      | none => .error (.keyError pid)
      | some pe => .ok (some pe.node)

/-- The per-child update loop at the end of `link_past_node`: each child's
entry is rebuilt with the new parent id. -/
def reparent : NodeList → List String → String → Except Err NodeList
  | ns, [], _ => .ok ns
  | ns, cid :: rest, pid =>
    match lookupNode ns cid with
    | none => .error (.keyError cid)
    | some ce => reparent (setKey ns cid ⟨ce.node, some pid, ce.children⟩) rest pid

/-- `AlarmTree.link_past_node(node)`: splice the node's children into its
parent (removed position replaced by appending the children at the end of the
parent's child list), drop the node, update the children's parent links.
Root: `RootNodeRemovalError` before any mutation. -/
def link_past_node (t : AlarmTree) (nid : String) : Except Err AlarmTree :=
  match lookupNode t.nodes nid with
  | none => .error (.keyError nid)
  | some e =>
    match e.parentId with
    | none => .error .rootRemoval
    | some pid =>
      match lookupNode t.nodes pid with
      | none => .error (.keyError pid)
      | some pe =>
        if pe.children.contains nid then
          let n1 := setKey t.nodes pid ⟨pe.node, pe.parentId, (pe.children.erase nid) ++ e.children⟩
          let n2 := eraseKey n1 nid
          (reparent n2 e.children pid).map (fun n3 => { nodes := n3, root := t.root })
        else .error .valueErr

/-- `AlarmTree.recursive_node_remove` in explicit work-list form: pop the
first pending id, drop its entry, push its children, count one; structural
recursion on a fuel that `remove_node` instantiates with one more than the
dict size, which the removal (each step shrinks the dict) can never exhaust.
`none` models a `KeyError` on a damaged tree, or fuel exhaustion. -/
def removeRecF : Nat → NodeList → List String → Option (NodeList × Nat)
  | _, nodes, [] => some (nodes, 0)
  | 0, _, _ :: _ => none
  | fuel + 1, nodes, nid :: stack =>
    match lookupNode nodes nid with
    | none => none
    | some e =>
      (removeRecF fuel (eraseKey nodes nid) (e.children ++ stack)).map
        (fun r => (r.1, r.2 + 1))

/-- `AlarmTree.remove_node(node)`: refuse the root, unhook the node from its
parent's child list, then remove the whole subtree, returning the new tree
and the number of removed nodes. -/
def remove_node (t : AlarmTree) (nid : String) : Except Err (AlarmTree × Nat) :=
  if t.root == some nid then .error .rootRemoval
  else
    match lookupNode t.nodes nid with
    | none => .error (.keyError nid)
    | some e =>
      match e.parentId with
      | none => .error (.keyError "None")
      | some pid =>
        match lookupNode t.nodes pid with
        | none => .error (.keyError pid)
        | some pe =>
          if pe.children.contains nid then
            let n1 := setKey t.nodes pid ⟨pe.node, pe.parentId, pe.children.erase nid⟩
            match removeRecF (n1.length + 1) n1 [nid] with
            | some (n2, cnt) => .ok ({ nodes := n2, root := t.root }, cnt)
            | none => .error (.keyError nid)
          else .error .valueErr

end AlarmTree

/-! ## Well-formedness of a tree, ancestor chains, descendant counts -/

/-- Scanning check that every entry's parent occurs among the keys already
seen (earlier in the list): dict insertion order is a topological order,
which holds for every tree built through the `AlarmTree` interface and rules
out parent-link cycles. -/
def topoOk : NodeList → List String → Bool
  | [], _ => true
  | kv :: rest, seen =>
    (match kv.2.parentId with
     | none => true
     | some p => seen.contains p) && topoOk rest (kv.1 :: seen)

/-- Local coherence of one entry: the dict key is the node's identifier; the
children are distinct, present, and point back; a present parent lists the
entry among its children. -/
def entryOk (l : NodeList) (kv : String × TreeEntry) : Bool :=
  (kv.2.node.identifier == kv.1) &&
  decide kv.2.children.Nodup &&
  kv.2.children.all (fun c =>
    match lookupNode l c with
    | some ce => ce.parentId == some kv.1
    | none => false) &&
  (match kv.2.parentId with
   | some p =>
     match lookupNode l p with
     | some pe => pe.children.contains kv.1
     | none => false
   | none => true)

/-- Well-formedness of an `AlarmTree` (decidable): distinct keys, topological
insertion order, locally coherent entries, and a root entry that is the
unique entry without a parent. -/
def WFb (t : AlarmTree) : Bool :=
  decide (keysOf t.nodes).Nodup &&
  topoOk t.nodes [] &&
  t.nodes.all (entryOk t.nodes) &&
  (match t.root with
   | some r =>
     (match lookupNode t.nodes r with
      | some re => re.parentId == none
      | none => false) &&
     t.nodes.all (fun kv => !(kv.2.parentId == none) || kv.1 == r)
   | none => false)

/-- Well-formedness as a (decidable) proposition. -/
def WF (t : AlarmTree) : Prop := WFb t = true

/-- The chain of strict ancestors of `nid` (parent, grandparent, …) obtained
by iterating `parentId` (fuel bounded; the chain stops at the root, at a
missing entry, or when the fuel runs out). -/
def parentChain : Nat → NodeList → String → List String
  | 0, _, _ => []
  | fuel + 1, nodes, nid =>
    match lookupNode nodes nid with
    | none => []
    | some e =>
      match e.parentId with
      | none => []
      | some p => p :: parentChain fuel nodes p

/-- The strict-ancestor chain with fuel `nodes.length`, which suffices on a
well-formed tree. -/
def ancestors (nodes : NodeList) (nid : String) : List String :=
  parentChain nodes.length nodes nid

/-- `k` lies in the subtree rooted at `c` (it is `c` or has `c` among its
strict ancestors). -/
def inSubB (nodes : NodeList) (c k : String) : Bool :=
  k == c || (ancestors nodes k).contains c

/-- The number of strict descendants of `nid`: the entries that have `nid`
on their strict-ancestor chain. -/
def descCount (t : AlarmTree) (nid : String) : Nat :=
  (t.nodes.filter (fun kv => (ancestors t.nodes kv.1).contains nid)).length

/-! ## The alh parser (alhparser.py)

String utilities modelling the python `str` methods the parser uses, at the
character-list level. -/

/-- The characters python `str.isspace` / `str.split()` treat as
whitespace. -/
def isPyWhite (c : Char) : Bool :=
  c == ' ' || c == '\t' || c == '\n' || c == '\r' || c == '\x0b' || c == '\x0c'

/-- `str.strip()`. -/
def pyStripChars (l : List Char) : List Char :=
  ((l.dropWhile isPyWhite).reverse.dropWhile isPyWhite).reverse

/-- `str.strip()`. -/
def pyStrip (s : String) : String :=
  ⟨pyStripChars s.data⟩

/-- Worker for `str.split()`: accumulates the current word reversed. -/
def splitWsGo : List Char → List Char → List String
  | [], cur => if cur.isEmpty then [] else [⟨cur.reverse⟩]
  | c :: rest, cur =>
    if isPyWhite c then
      if cur.isEmpty then splitWsGo rest []
      else ⟨cur.reverse⟩ :: splitWsGo rest []
    else splitWsGo rest (c :: cur)

/-- `str.split()` (no argument): split on whitespace runs, no empties. -/
def splitWs (s : String) : List String :=
  splitWsGo s.data []

/-- `str.split(maxsplit=1)`: at most two pieces — the first word and the
remainder with its leading whitespace consumed. -/
def pySplitMax1 (s : String) : List String :=
  let l1 := s.data.dropWhile isPyWhite
  let w := l1.takeWhile (fun c => !isPyWhite c)
  let r := (l1.dropWhile (fun c => !isPyWhite c)).dropWhile isPyWhite
  if w.isEmpty then []
  else if r.isEmpty then [⟨w⟩] else [⟨w⟩, ⟨r⟩]

/-- `needle` is a prefix of the character list. -/
def isPrefixOfC : List Char → List Char → Bool
  | [], _ => true
  | _ :: _, [] => false
  | a :: as, b :: bs => a == b && isPrefixOfC as bs

/-- Worker for the python `in` (substring) test. -/
def containsSubGo : List Char → List Char → Bool
  | needle, [] => needle.isEmpty
  | needle, h :: rest => isPrefixOfC needle (h :: rest) || containsSubGo needle rest

/-- python `needle in haystack` on strings. -/
def containsSubstr (needle haystack : String) : Bool :=
  containsSubGo needle.data haystack.data

/-- Worker for `str.replace` (non-empty pattern), structural on a fuel that
the wrapper instantiates with the input length plus one — sufficient, since
every step consumes at least one input character. -/
def replaceSubF : Nat → List Char → List Char → List Char → List Char
  | 0, _, _, l => l
  | _ + 1, _, _, [] => []
  | fuel + 1, pat, rep, c :: rest =>
    if pat.isEmpty then c :: rest
    else if isPrefixOfC pat (c :: rest) then
      rep ++ replaceSubF fuel pat rep ((c :: rest).drop pat.length)
    else c :: replaceSubF fuel pat rep rest

/-- python `s.replace(pat, rep)` for a non-empty `pat`. -/
def replaceAll (s pat rep : String) : String :=
  ⟨replaceSubF (s.data.length + 1) pat.data rep.data s.data⟩

/-- The numeric value of a run of decimal digits. -/
def digitsVal (l : List Char) : Nat :=
  l.foldl (fun n c => n * 10 + (c.toNat - 48)) 0

/-- python `float(s)` on the numeral forms the alh files use (an optional
sign, digits, an optional fraction); `none` models `ValueError`.  The full
python float grammar (exponents, inf/nan, underscores) is not needed by any
claim and is not modelled. -/
def pyParseFloat (s : String) : Option Rat :=
  let l := pyStripChars s.data
  let (neg, l1) := match l with
    | '-' :: r => (true, r)
    | '+' :: r => (false, r)
    | _ => (false, l)
  let ip := l1.takeWhile (fun c => c != '.')
  let rest := l1.dropWhile (fun c => c != '.')
  if !(ip.all (fun c => c.isDigit)) then none
  else
    match rest with
    | [] =>
      if ip.isEmpty then none
      else some (if neg then -(digitsVal ip : Rat) else (digitsVal ip : Rat))
    | _ :: fp =>
      if !(fp.all (fun c => c.isDigit)) then none
      else if ip.isEmpty && fp.isEmpty then none
      else
        some ((if neg then -1 else 1) *
          ((digitsVal ip : Rat) + (digitsVal fp : Rat) / ((10 : Rat) ^ fp.length)))

/-- `os.path.split(p)[1]`: the part after the last `/`. -/
def pathBasename (l : List Char) : List Char :=
  (l.reverse.takeWhile (fun c => c != '/')).reverse

/-- `os.path.splitext(f)[0]`: drop the extension after the last dot, unless
all characters before that dot are dots themselves (python treats leading
dots as part of the name). -/
def dropPathExt (l : List Char) : List Char :=
  let revf := l.reverse
  match revf.dropWhile (fun c => c != '.') with
  | [] => l
  | _ :: baseRev =>
    if baseRev.all (fun c => c == '.') then l else baseRev.reverse

/-- `alhparser.command_name`: first word of the command line, basename,
extension stripped; `ValueError` (modelled `none`) when the string has no
words (`command, *args = commandString.split()`). -/
def command_name (commandString : String) : Option String :=
  match splitWs commandString with
  | [] => none
  | command :: _ => some ⟨dropPathExt (pathBasename command.data)⟩

/-- `keyFragment.split("_")[-1]`: everything after the last underscore. -/
def afterLastUnderscore (s : String) : String :=
  ⟨(s.data.reverse.takeWhile (fun c => c != '_')).reverse⟩

/-! ## The process functions

Each handler gets the argument string, the tree, the current node id, and a
fresh uuid string (only `process_include` consumes it), and produces the new
tree, the new current id, and the continuation data.  python mutates the
node objects held by the tree in place; the model rewrites the entry of the
mutated node.  An `error` models an exception escaping the handler; the
uncaught-`KeyError` paths inside handlers can in python leave earlier
mutations of the same handler behind, which the model does not track — no
claim depends on such a line. -/

/-- A handler's successful result: tree, current node id, continuation. -/
abbrev HandlerResult := Except Err (AlarmTree × String × Option String)

abbrev Handler := String → AlarmTree → String → String → HandlerResult

/-- `alhparser.find_parent` walking loop, structural on fuel (the wrapper
supplies the tree size plus one, enough on any well-formed tree; python
would loop forever on a parent cycle — modelled by `noTerm`). -/
def find_parentF : Nat → AlarmTree → ANode → String → Except Err (Option String)
  | 0, _, _, _ => .error .noTerm
  | fuel + 1, tree, curNode, parentName =>
    if parentName == curNode.tag then .ok (some curNode.identifier)
    else
      match lookupNode tree.nodes curNode.identifier with
      | none => .error (.keyError curNode.identifier)
      | some e =>
        match e.parentId with
        | none => .error .attrErr
        | some pid =>
          match lookupNode tree.nodes pid with
          | none => .error (.keyError pid)
          | some pe => find_parentF fuel tree pe.node parentName

/-- `alhparser.find_parent`: `NULL` means no parent (the tree root), else
walk up from the current node until the tag matches; walking past the root
hits `None.tag` — an `AttributeError`. -/
def find_parent (tree : AlarmTree) (curId : String) (parentName : String) :
    Except Err (Option String) :=
  if parentName == "NULL" then .ok none
  else
    match lookupNode tree.nodes curId with
    | none => .error (.keyError curId)
    | some e => find_parentF (tree.nodes.length + 1) tree e.node parentName

/-- `alhparser.propagate_filter`: copy the parent's `filter` attribute to
the current node; a missing attribute (or a `None` parent id, for which
`get_node` returns `None`) is an `AttributeError` that the function
swallows.  python copies a reference to a shared filter object; the model
copies the value — equivalent for every claim, because no claim mutates a
filter after it has been propagated. -/
def propagate_filter (tree : AlarmTree) (parentId : Option String) (curId : String) :
    Except Err AlarmTree :=
  match parentId with
  | none => .ok tree
  | some pid =>
    match lookupNode tree.nodes pid with
    | none => .error (.keyError pid)
    | some pe =>
      match pe.node.getFilter with
      | none => .ok tree
      | some fv =>
        match lookupNode tree.nodes curId with
        | none => .error (.keyError curId)
        | some ce =>
          .ok { tree with nodes := (setKey tree.nodes curId
                  ⟨ce.node.setFilter fv, ce.parentId, ce.children⟩) }

/-- `alhparser.create_alarm_filter`.  On `CALC` with a 0/1 value the filter
collapses to `AlarmFilter(expr="", enabling = bool(value) == filterEnables)`
(all other fields at their python defaults); a non-0/1 `CALC` value is
rejected with the empty-string filter. -/
def create_alarm_filter (forcePV : String) (forceValue : PyVal)
    (filterEnables : Bool) : FilterVal :=
  if forcePV == "CALC" then
    if pyValIn01 forceValue then
      .obj { expr := "", value := .int 1, A := "", B := "", C := "", D := "",
             E := "", F := "", enabling := (pyValBool forceValue == filterEnables) }
    else .str ""
  else
    .obj { expr := forcePV, value := forceValue, A := "", B := "", C := "",
           D := "", E := "", F := "", enabling := filterEnables }

/-- `process_group`: `parentName, name = alhArgs.split()` (exactly two words
or `ValueError`), find the parent, create the group, propagate the parent's
filter; the group becomes the current node. -/
def process_group : Handler := fun alhArgs tree cur _ =>
  match splitWs alhArgs with
  | [parentName, name] =>
    match find_parent tree cur parentName with
    | .error e => .error e
    | .ok parentId =>
      match AlarmTree.create_node tree name parentId none 0 with
      | .error e => .error e
      | .ok (t2, node) =>
        (propagate_filter t2 parentId node.identifier).map
          (fun t3 => (t3, node.identifier, none))
  | _ => .error .valueErr

/-- `process_channel`: note that the `except DuplicatedNodeIdError` around
`create_alarm` names the *treelib* exception class while the tree raises its
own `DuplicatedNodeIdError` — the handler therefore does not catch a
duplicate PV and the exception escapes. -/
def process_channel : Handler := fun alhArgs tree cur _ =>
  match splitWs alhArgs with
  | parentName :: pvName :: maskRest =>
    match find_parent tree cur parentName with
    | .error e => .error e
    | .ok parentId =>
      match AlarmTree.create_alarm tree pvName parentId 0 with
      | .error e => .error e
      | .ok (t2, node) =>
        match lookupNode t2.nodes node.identifier with
        | none => .error (.keyError node.identifier)
        | some ce =>
          let node2 := match maskRest with
            | mask :: _ =>
              let n1 := if containsSubstr "C" mask || containsSubstr "D" mask
                        then ce.node.setEnabled false else ce.node
              if containsSubstr "T" mask then n1.setLatch false else n1
            | [] => ce.node
          let t3 : AlarmTree :=
            { t2 with nodes := (setKey t2.nodes node.identifier
                ⟨node2, ce.parentId, ce.children⟩) }
          (propagate_filter t3 parentId node.identifier).map
            (fun t4 => (t4, node.identifier, none))
  | _ => .error .idxErr

/-- `process_include`: the inclusion marker's identifier is a fresh
`uuid.uuid1()`, supplied here by the per-line fresh-uuid argument; the
current node does not change. -/
def process_include : Handler := fun alhArgs tree cur freshId =>
  match splitWs alhArgs with
  | [parentName, fileName] =>
    match find_parent tree cur parentName with
    | .error e => .error e
    | .ok parentId =>
      match AlarmTree.create_inclusion tree fileName freshId parentId 0 with
      | .error e => .error e
      | .ok (t2, _) => .ok (t2, cur, none)
  | _ => .error .valueErr

/-- `process_alias`: on a channel set the description; on a group whose name
differs, rename only when childless — remove the node, re-create it under
the same parent with the alias as name and the old name as tag, and carry
the guidance/command/display/action lists over (the dynamic
filter/enabled/count/delay attributes are *not* carried); a group with
children is reported and left untouched.  On the root `BaseNode` reading
`_name` raises `AttributeError`. -/
def process_alias : Handler := fun alhArgs tree cur _ =>
  let aliasStr := pyStrip alhArgs
  match lookupNode tree.nodes cur with
  | none => .error (.keyError cur)
  | some ce =>
    match ce.node.kind with
    | .pv p =>
      .ok ({ tree with nodes := (setKey tree.nodes cur
               ⟨{ ce.node with kind := .pv { p with desc := aliasStr } },
                ce.parentId, ce.children⟩) }, cur, none)
    | .group g =>
      if g.name == aliasStr then .ok (tree, cur, none)
      else if !ce.children.isEmpty then .ok (tree, cur, none)
      else
        match AlarmTree.remove_node tree cur with
        | .error e => .error e
        | .ok (t2, _) =>
          match AlarmTree.create_node t2 aliasStr ce.parentId (some g.name) 0 with
          | .error e => .error e
          | .ok (t3, newNode) =>
            match lookupNode t3.nodes newNode.identifier with
            | none => .error (.keyError newNode.identifier)
            | some ne2 =>
              match ne2.node.kind with
              | .group g2 =>
                .ok ({ t3 with nodes := (setKey t3.nodes newNode.identifier
                        ⟨{ ne2.node with kind := (.group
                            { g2 with guidances := g.guidances,
                                      commands := g.commands,
                                      displays := g.displays,
                                      actions := g.actions }) },
                         ne2.parentId, ne2.children⟩) }, newNode.identifier, none)
              | _ => .error .typeErr
    | _ => .error .attrErr

/-- `process_sevrpv`. -/
def process_sevrpv : Handler := fun alhArgs tree cur _ =>
  match lookupNode tree.nodes cur with
  | none => .error (.keyError cur)
  | some ce =>
    match ce.node.add_sevr_pv (pyStrip alhArgs) with
    | none => .error .attrErr
    | some n2 =>
      .ok ({ tree with nodes := setKey tree.nodes cur ⟨n2, ce.parentId, ce.children⟩ },
           cur, none)

/-- `process_sevrcommand`: only `UP...` severities act; a command already
occurring in some action's details is skipped. -/
def process_sevrcommand : Handler := fun alhArgs tree cur _ =>
  match pySplitMax1 alhArgs with
  | [sevr, command] =>
    match command_name command with
    | none => .error .valueErr
    | some commandName =>
      if containsSubstr "UP" sevr then
        match lookupNode tree.nodes cur with
        | none => .error (.keyError cur)
        | some ce =>
          match ce.node.kind with
          | .base _ => .error .attrErr
          | .inclusion _ => .error .attrErr
          | _ =>
            if ce.node.actionsOf.any (fun a => containsSubstr command a.details) then
              .ok (tree, cur, none)
            else
              match ce.node.add_auto_action commandName 0 command with
              | none => .error .attrErr
              | some n2 =>
                .ok ({ tree with nodes := (setKey tree.nodes cur
                        ⟨n2, ce.parentId, ce.children⟩) }, cur, none)
      else .ok (tree, cur, none)
  | _ => .error .valueErr

/-- `process_guidance` with its `data` continuation parameter: a non-empty
single line becomes a URL display; an empty line starts multi-line
collection; `$END` closes it into a guidance. -/
def process_guidance (data : Option String) (alhArgs : String) (tree : AlarmTree)
    (cur : String) : HandlerResult :=
  match data with
  | none =>
    let a := pyStrip alhArgs
    if a.data.isEmpty then .ok (tree, cur, some "")
    else
      match lookupNode tree.nodes cur with
      | none => .error (.keyError cur)
      | some ce =>
        match ce.node.add_display "URL" a with
        | none => .error .attrErr
        | some n2 =>
          .ok ({ tree with nodes := setKey tree.nodes cur ⟨n2, ce.parentId, ce.children⟩ },
               cur, none)
  | some d =>
    if containsSubstr "$END" alhArgs then
      match lookupNode tree.nodes cur with
      | none => .error (.keyError cur)
      | some ce =>
        match ce.node.add_guidance "help" d with
        | none => .error .attrErr
        | some n2 =>
          .ok ({ tree with nodes := setKey tree.nodes cur ⟨n2, ce.parentId, ce.children⟩ },
               cur, none)
    else .ok (tree, cur, some (d ++ alhArgs))

/-- `process_command`. -/
def process_command : Handler := fun alhArgs tree cur _ =>
  match command_name alhArgs with
  | none => .error .valueErr
  | some commandName =>
    match lookupNode tree.nodes cur with
    | none => .error (.keyError cur)
    | some ce =>
      match ce.node.add_command commandName alhArgs with
      | none => .error .attrErr
      | some n2 =>
        .ok ({ tree with nodes := setKey tree.nodes cur ⟨n2, ce.parentId, ce.children⟩ },
             cur, none)

/-- `process_alarmcount`: `count, time = alhArgs.split()` — any word count
other than two raises an uncaught `ValueError`; the values are stored as the
raw strings. -/
def process_alarmcount : Handler := fun alhArgs tree cur _ =>
  match splitWs alhArgs with
  | [count, time] =>
    match lookupNode tree.nodes cur with
    | none => .error (.keyError cur)
    | some ce =>
      .ok ({ tree with nodes := (setKey tree.nodes cur
              ⟨(ce.node.setCount (.str count)).setDelay (.str time),
               ce.parentId, ce.children⟩) }, cur, none)
  | _ => .error .valueErr

/-- `process_statcommand` has no `return` statement: python returns `None`,
and the caller's tuple unpacking raises an uncaught `TypeError` — even on
well-formed input the parse aborts (after the earlier argument errors, which
come first). -/
def process_statcommand : Handler := fun alhArgs _ _ _ =>
  match pySplitMax1 alhArgs with
  | [_, command] =>
    match command_name command with
    | none => .error .valueErr
    | some _ => .error .typeErr
  | _ => .error .valueErr

/-- `process_beep` also has no `return`: the tuple unpacking of `None`
raises `TypeError`. -/
def process_beep : Handler := fun _ _ _ _ => .error .typeErr

/-- `process_forcepv` with `get_forcepv_args` inlined: missing pv or mask is
an `IndexError`, an unparsable value a `ValueError` from `float`; when the
force mask would not change the node's enabled state the filter is the empty
string, otherwise the node is enabled and the filter object created. -/
def process_forcepv : Handler := fun alhArgs tree cur _ =>
  let args := splitWs alhArgs
  match args with
  | [] => .error .idxErr
  | [_] => .error .idxErr
  | forcePV :: forceMask :: rest =>
    let forceValue? : Except Err PyVal :=
      match rest with
      | [] => .ok (.int 1)
      | v :: _ =>
        match pyParseFloat v with
        | some q => .ok (.float q)
        | none => .error .valueErr
    match forceValue? with
    | .error e => .error e
    | .ok forceValue =>
      let forceEnables := !(containsSubstr "C" forceMask || containsSubstr "D" forceMask)
      match lookupNode tree.nodes cur with
      | none => .error (.keyError cur)
      | some ce =>
        let nodeEnabled := (ce.node.getEnabled).getD true
        if forceEnables == nodeEnabled then
          .ok ({ tree with nodes := (setKey tree.nodes cur
                  ⟨ce.node.setFilter (.str ""), ce.parentId, ce.children⟩) }, cur, none)
        else
          let n2 := ce.node.setEnabled true
          let filterObj := create_alarm_filter forcePV forceValue forceEnables
          .ok ({ tree with nodes := (setKey tree.nodes cur
                  ⟨n2.setFilter filterObj, ce.parentId, ce.children⟩) }, cur, none)

/-- Update one replacement slot of a filter; `none` for a key outside
`A`..`F` (python would add a fresh dict key that nothing else reads — no
claim exercises such a key). -/
def setReplKey (f : AlarmFilter) (key expr : String) : Option AlarmFilter :=
  if key == "A" then some { f with A := expr }
  else if key == "B" then some { f with B := expr }
  else if key == "C" then some { f with C := expr }
  else if key == "D" then some { f with D := expr }
  else if key == "E" then some { f with E := expr }
  else if key == "F" then some { f with F := expr }
  else none

/-- `process_forcepvcalc`: exactly two words or an uncaught `ValueError`;
the `AttributeError` of a missing or plain-string filter is caught and the
line ignored.  python mutates a filter object that may be shared with other
nodes; at the point any claim reads a propagated filter no further mutation
follows, so the by-value model agrees. -/
def process_forcepvcalc : Handler := fun alhArgs tree cur _ =>
  match splitWs alhArgs with
  | [keyFragment, expr] =>
    let key := afterLastUnderscore keyFragment
    match lookupNode tree.nodes cur with
    | none => .error (.keyError cur)
    | some ce =>
      match ce.node.getFilter with
      | some (.obj f) =>
        if key == "CALC" then
          .ok ({ tree with nodes := (setKey tree.nodes cur
                  ⟨ce.node.setFilter (.obj { f with expr := expr }), ce.parentId,
                   ce.children⟩) }, cur, none)
        else
          match setReplKey f key expr with
          | some f2 =>
            .ok ({ tree with nodes := (setKey tree.nodes cur
                    ⟨ce.node.setFilter (.obj f2), ce.parentId, ce.children⟩) }, cur, none)
          | none => .ok (tree, cur, none)
      | _ => .ok (tree, cur, none)
  | _ => .error .valueErr

/-- `process_heartbeat`: log only. -/
def process_heartbeat : Handler := fun _ tree cur _ => .ok (tree, cur, none)

/-- `process_ignored`: log only. -/
def process_ignored : Handler := fun _ tree cur _ => .ok (tree, cur, none)

/-- The keyword dispatch dict of `parse_alh` (no user dispatch). -/
def dispatchTable : List (String × Handler) :=
  [("GROUP", process_group),
   ("INCLUDE", process_include),
   ("$ALIAS", process_alias),
   ("CHANNEL", process_channel),
   ("$SEVRPV", process_sevrpv),
   ("$GUIDANCE", fun a t c _ => process_guidance none a t c),
   ("$COMMAND", process_command),
   ("$SEVRCOMMAND", process_sevrcommand),
   ("$ALARMCOUNTFILTER", process_alarmcount),
   ("$FORCEPV", process_forcepv),
   ("$FORCEPV_CALC", process_forcepvcalc),
   ("$STATCOMMAND", process_statcommand),
   ("$HEARTBEATPV", process_heartbeat),
   ("$ACKPV", process_ignored),
   ("$BEEPSEVERITY", process_beep),
   ("$BEEPSEVR", process_beep)]

/-- `dispatch[keyword]`, `none` for the `KeyError`. -/
def dispatchOf (kw : String) : Option Handler :=
  (dispatchTable.find? (fun kv => kv.1 == kw)).map (fun kv => kv.2)

/-- The loop state of `parse_alh`: the tree, the current node id, the
guidance continuation data, and a counter generating the fresh uuid
strings. -/
structure ParserState where
  tree : AlarmTree
  current : String
  contData : Option String
  nextUuid : Nat
  deriving DecidableEq, Repr

/-- The fresh identifier `uuid.uuid1()` of the n-th processed line. -/
def uuidString (n : Nat) : String :=
  "uuid-" ++ toString n

/-- One iteration of the `parse_alh` line loop on a line given without its
trailing newline.  A requested continuation goes straight to
`process_guidance` (the only handler that requests one) with the raw line;
otherwise blank and `#` lines are skipped, the line is stripped and split,
`$FORCEPV_CALC...` keywords are normalised, and the handler dispatched — an
unknown keyword (`KeyError`) is only logged, a `KeyError` escaping the
handler is likewise caught, and every other exception aborts the parse.
The `except DuplicatedNodeIdError` names the treelib class, which the tree
never raises, so duplicate-id errors abort. -/
def parseStep (st : ParserState) (line : String) : Except Err ParserState :=
  match st.contData with
  | some d =>
    match process_guidance (some d) (line ++ "\n") st.tree st.current with
    | .error e => .error e
    | .ok (t2, cur2, cont2) =>
      .ok { tree := t2, current := cur2, contData := cont2, nextUuid := st.nextUuid }
  | none =>
    let raw := line ++ "\n"
    if raw.data.all isPyWhite then .ok st
    else if raw.data.head? == some '#' then .ok st
    else
      let stripped := pyStrip line
      let (keyword, alhArgs) :=
        match pySplitMax1 stripped with
        | [k, a] => (k, a)
        | [k] => (k, "")
        | _ => (stripped, "")
      let (keyword, alhArgs) :=
        if containsSubstr "$FORCEPV_CALC" keyword then
          (("$FORCEPV_CALC" : String),
           (replaceAll keyword "$FORCEPV_CALC" "CALC") ++ " " ++ alhArgs)
        else (keyword, alhArgs)
      match dispatchOf keyword with
      | none => .ok st
      | some h =>
        match h alhArgs st.tree st.current (uuidString st.nextUuid) with
        | .ok (t2, cur2, cont2) =>
          .ok { tree := t2, current := cur2, contData := cont2,
                nextUuid := st.nextUuid + 1 }
        | .error (.keyError _) => .ok st
        | .error e => .error e

/-- `parse_alh` over a list of lines (file reading aside): fold the line
step from the freshly initialised tree, whose root node is the current
node. -/
def parse_alh_lines (lines : List String) (configName : String) :
    Except Err ParserState :=
  lines.foldlM parseStep
    { tree := AlarmTree.init configName, current := configName,
      contData := none, nextUuid := 0 }

/-! ## Concrete example trees used to evaluate the theorems -/

/-- The `AlarmNode` literal that `create_node` builds, named for reuse in
the concrete examples. -/
def egGroup (identifier name : String) (sortKey : Int) : ANode :=
  { identifier := identifier, tag := name, sortKey := sortKey,
    kind := .group ⟨name, [], [], [], [], none, none, none, none⟩ }

/-- The chain `R → R/a → R/a/b`, exactly as `AlarmTree("R")` followed by
`create_node("a")` and `create_node("b", parent="R/a")` produces it. -/
def egTree1 : AlarmTree :=
  { nodes :=
      [("R", ⟨ANode.baseNode "R" "R" 0, none, ["R/a"]⟩),
       ("R/a", ⟨egGroup "R/a" "a" 0, some "R", ["R/a/b"]⟩),
       ("R/a/b", ⟨egGroup "R/a/b" "b" 0, some "R/a", []⟩)],
    root := some "R" }

/-- Root `Test` with two childless groups inserted with sort keys `2` then
`1`: insertion order and sort-key order disagree. -/
def egTree2 : AlarmTree :=
  { nodes :=
      [("Test", ⟨ANode.baseNode "Test" "Test" 0, none, ["Test/b", "Test/c"]⟩),
       ("Test/b", ⟨egGroup "Test/b" "b" 2, some "Test", []⟩),
       ("Test/c", ⟨egGroup "Test/c" "c" 1, some "Test", []⟩)],
    root := some "Test" }

/-- Root `R` with two childless groups `R/p` and `R/q`. -/
def egTree3 : AlarmTree :=
  { nodes :=
      [("R", ⟨ANode.baseNode "R" "R" 0, none, ["R/p", "R/q"]⟩),
       ("R/p", ⟨egGroup "R/p" "p" 0, some "R", []⟩),
       ("R/q", ⟨egGroup "R/q" "q" 0, some "R", []⟩)],
    root := some "R" }

/-- The `AlarmPV` literal that `create_alarm` builds, named for reuse in the
concrete examples. -/
def egPV (pv : String) (sortKey : Int) : ANode :=
  ⟨pv, pv, sortKey,
   .pv ⟨pv, "", true, true, true, .num (.int 0), .num (.int 0), .str "",
        [], [], [], []⟩⟩

/-- `egTree3` extended by an alarm PV `test:ai1` under `R/p`. -/
def egTreePV : AlarmTree :=
  { nodes :=
      [("R", ⟨ANode.baseNode "R" "R" 0, none, ["R/p", "R/q"]⟩),
       ("R/p", ⟨egGroup "R/p" "p" 0, some "R", ["test:ai1"]⟩),
       ("R/q", ⟨egGroup "R/q" "q" 0, some "R", []⟩),
       ("test:ai1", ⟨egPV "test:ai1" 0, some "R/p", []⟩)],
    root := some "R" }

/-! ## Lemmas about the association-list dict -/

section DictLemmas

theorem lookupNode_nil {k : String} : lookupNode [] k = none := rfl

theorem lookupNode_cons {kv : String × TreeEntry} {rest : NodeList} {k : String} :
    lookupNode (kv :: rest) k
      = if kv.1 = k then some kv.2 else lookupNode rest k := by
  by_cases h : kv.1 = k
  · unfold lookupNode
    rw [List.find?_cons_of_pos _ (by simpa using h)]
    simp [h]
  · unfold lookupNode
    rw [List.find?_cons_of_neg _ (by simpa using h)]
    simp [h]

theorem setKey_cons {kv : String × TreeEntry} {rest : NodeList} {k : String} {e : TreeEntry} :
    setKey (kv :: rest) k e
      = (if kv.1 = k then (k, e) else kv) :: setKey rest k e := by
  simp only [setKey, List.map_cons, beq_iff_eq]

theorem eraseKey_cons {kv : String × TreeEntry} {rest : NodeList} {k : String} :
    eraseKey (kv :: rest) k
      = if kv.1 = k then eraseKey rest k else kv :: eraseKey rest k := by
  by_cases h : kv.1 = k
  · simp only [eraseKey, h, if_pos]
    rw [List.filter_cons_of_neg (by simp [h])]
  · simp only [eraseKey, h, if_neg, not_false_iff]
    rw [List.filter_cons_of_pos (by simpa using h)]

theorem lookupNode_mem {l : NodeList} {k : String} {e : TreeEntry}
    (h : lookupNode l k = some e) : (k, e) ∈ l := by
  induction l with
  | nil => simp [lookupNode_nil] at h
  | cons kv rest ih =>
    rw [lookupNode_cons] at h
    by_cases hk : kv.1 = k
    · rw [if_pos hk] at h
      cases h
      subst hk
      exact List.mem_cons_self _ _
    · rw [if_neg hk] at h
      exact List.mem_cons_of_mem _ (ih h)

theorem mem_keysOf_of_lookup {l : NodeList} {k : String} {e : TreeEntry}
    (h : lookupNode l k = some e) : k ∈ keysOf l :=
  List.mem_map_of_mem (fun kv => kv.1) (lookupNode_mem h)

theorem lookupNode_eq_none_iff {l : NodeList} {k : String} :
    lookupNode l k = none ↔ k ∉ keysOf l := by
  induction l with
  | nil => simp [lookupNode_nil, keysOf]
  | cons kv rest ih =>
    rw [lookupNode_cons]
    by_cases hk : kv.1 = k
    · simp [hk, keysOf]
    · simp only [if_neg hk, ih, keysOf, List.map_cons, List.mem_cons]
      constructor
      · intro hnot hor
        exact hor.elim (fun hh => hk hh.symm) hnot
      · intro hnot hmem
        exact hnot (Or.inr hmem)

theorem lookupNode_isSome_of_mem {l : NodeList} {k : String}
    (h : k ∈ keysOf l) : (lookupNode l k).isSome := by
  cases hl : lookupNode l k with
  | none => exact absurd h (lookupNode_eq_none_iff.mp hl)
  | some e => rfl

theorem lookupNode_exists_of_mem {l : NodeList} {k : String}
    (h : k ∈ keysOf l) : ∃ e, lookupNode l k = some e := by
  cases hl : lookupNode l k with
  | none => exact absurd h (lookupNode_eq_none_iff.mp hl)
  | some e => exact ⟨e, rfl⟩

theorem lookupNode_append {l1 l2 : NodeList} {k : String} :
    lookupNode (l1 ++ l2) k = (lookupNode l1 k).or (lookupNode l2 k) := by
  unfold lookupNode
  rw [List.find?_append]
  cases l1.find? (fun kv => kv.1 == k) <;> simp

theorem keysOf_setKey {l : NodeList} {k : String} {e : TreeEntry} :
    keysOf (setKey l k e) = keysOf l := by
  induction l with
  | nil => rfl
  | cons kv rest ih =>
    rw [setKey_cons]
    by_cases hk : kv.1 = k
    · simp only [if_pos hk, keysOf, List.map_cons] at ih ⊢
      rw [ih, hk]
    · simp only [if_neg hk, keysOf, List.map_cons] at ih ⊢
      rw [ih]

theorem length_setKey {l : NodeList} {k : String} {e : TreeEntry} :
    (setKey l k e).length = l.length := by
  simp [setKey]

theorem lookupNode_setKey_ne {l : NodeList} {k k1 : String} {e : TreeEntry}
    (h : k1 ≠ k) : lookupNode (setKey l k e) k1 = lookupNode l k1 := by
  induction l with
  | nil => rfl
  | cons kv rest ih =>
    rw [setKey_cons]
    by_cases hk : kv.1 = k
    · rw [if_pos hk, lookupNode_cons, lookupNode_cons,
          if_neg (fun hh => h hh.symm), if_neg (by rw [hk]; exact fun hh => h hh.symm)]
      exact ih
    · rw [if_neg hk, lookupNode_cons, lookupNode_cons]
      by_cases hk1 : kv.1 = k1
      · rw [if_pos hk1, if_pos hk1]
      · rw [if_neg hk1, if_neg hk1]
        exact ih

theorem lookupNode_setKey_self {l : NodeList} {k : String} {e : TreeEntry}
    (h : k ∈ keysOf l) : lookupNode (setKey l k e) k = some e := by
  induction l with
  | nil => simp [keysOf] at h
  | cons kv rest ih =>
    rw [setKey_cons]
    by_cases hk : kv.1 = k
    · rw [if_pos hk, lookupNode_cons, if_pos rfl]
    · have h2 : k ∈ keysOf rest := by
        simp only [keysOf, List.map_cons, List.mem_cons] at h
        exact h.resolve_left (fun hh => hk hh.symm)
      rw [if_neg hk, lookupNode_cons, if_neg hk]
      exact ih h2

theorem lookupNode_filterKey (p : String → Bool) (l : NodeList) (k : String) :
    lookupNode (l.filter (fun kv => p kv.1)) k
      = if p k then lookupNode l k else none := by
  induction l with
  | nil => simp [lookupNode_nil]
  | cons kv rest ih =>
    rw [List.filter_cons]
    by_cases hp : p kv.1
    · simp only [hp, if_true]
      rw [lookupNode_cons, lookupNode_cons]
      by_cases hk : kv.1 = k
      · rw [if_pos hk, if_pos hk, if_pos (hk ▸ hp)]
      · rw [if_neg hk, if_neg hk, ih]
    · simp only [hp, Bool.false_eq_true, if_false]
      rw [ih, lookupNode_cons]
      by_cases hk : kv.1 = k
      · rw [if_neg (by rw [← hk]; simpa using hp), if_pos hk]
        subst hk
        simp [hp]
      · rw [if_neg hk]

theorem lookupNode_eraseKey_self {l : NodeList} {k : String} :
    lookupNode (eraseKey l k) k = none := by
  unfold eraseKey
  have h := lookupNode_filterKey (fun x => x != k) l k
  simpa using h

theorem lookupNode_eraseKey_ne {l : NodeList} {k k1 : String} (h : k1 ≠ k) :
    lookupNode (eraseKey l k) k1 = lookupNode l k1 := by
  unfold eraseKey
  have h2 := lookupNode_filterKey (fun x => x != k) l k1
  simpa [h] using h2

theorem length_eraseKey_lt {l : NodeList} {k : String} (h : k ∈ keysOf l) :
    (eraseKey l k).length < l.length := by
  induction l with
  | nil => simp [keysOf] at h
  | cons kv rest ih =>
    rw [eraseKey_cons]
    by_cases hk : kv.1 = k
    · rw [if_pos hk]
      have hle : (eraseKey rest k).length ≤ rest.length := List.length_filter_le _ _
      simp only [List.length_cons]
      omega
    · have h2 : k ∈ keysOf rest := by
        simp only [keysOf, List.map_cons, List.mem_cons] at h
        exact h.resolve_left (fun hh => hk hh.symm)
      rw [if_neg hk]
      simp only [List.length_cons]
      exact Nat.succ_lt_succ (ih h2)

theorem length_filter_or {α : Type} (l : List α) (p q : α → Bool)
    (hdisj : ∀ a, p a = true → q a = true → False) :
    (l.filter (fun a => p a || q a)).length
      = (l.filter p).length + (l.filter q).length := by
  induction l with
  | nil => simp
  | cons a rest ih =>
    by_cases hp : p a
    · have hq : ¬q a = true := fun hq => hdisj a hp hq
      rw [List.filter_cons_of_pos (by simp [hp]), List.filter_cons_of_pos hp,
          List.filter_cons_of_neg (by simpa using hq)]
      simp only [List.length_cons]
      omega
    · by_cases hq : q a
      · rw [List.filter_cons_of_pos (by simp [hq]), List.filter_cons_of_neg (by simpa using hp),
            List.filter_cons_of_pos hq]
        simp only [List.length_cons]
        omega
      · rw [List.filter_cons_of_neg (by simp [hp, hq]),
            List.filter_cons_of_neg (by simpa using hp),
            List.filter_cons_of_neg (by simpa using hq)]
        exact ih

theorem countP_keys {l : NodeList} (p : String → Bool) :
    (l.filter (fun kv => p kv.1)).length = ((keysOf l).filter p).length := by
  induction l with
  | nil => rfl
  | cons kv rest ih =>
    rw [List.filter_cons]
    show _ = (List.filter p (kv.1 :: keysOf rest)).length
    rw [List.filter_cons]
    by_cases hp : p kv.1
    · simp only [hp, if_true, List.length_cons]
      rw [ih]
    · simp only [hp, Bool.false_eq_true, if_false]
      exact ih

end DictLemmas

/-! ## Lemmas extracting the parts of well-formedness -/

section WFLemmas

variable {t : AlarmTree} {k p c : String} {e : TreeEntry}

theorem wfb_parts (h : WF t) :
    (keysOf t.nodes).Nodup ∧ topoOk t.nodes [] = true ∧
    t.nodes.all (entryOk t.nodes) = true ∧
    (match t.root with
     | some r =>
       (match lookupNode t.nodes r with
        | some re => re.parentId == none
        | none => false) &&
       t.nodes.all (fun kv => !(kv.2.parentId == none) || kv.1 == r)
     | none => false) = true := by
  unfold WF WFb at h
  simp only [Bool.and_eq_true, decide_eq_true_eq] at h
  tauto

theorem wf_keysNodup (h : WF t) : (keysOf t.nodes).Nodup := (wfb_parts h).1

theorem wf_topo (h : WF t) : topoOk t.nodes [] = true := (wfb_parts h).2.1

theorem wf_entryOk (h : WF t) (hm : lookupNode t.nodes k = some e) :
    entryOk t.nodes (k, e) = true := by
  have hall := (wfb_parts h).2.2.1
  rw [List.all_eq_true] at hall
  exact hall (k, e) (lookupNode_mem hm)

theorem wf_idMatch (h : WF t) (hm : lookupNode t.nodes k = some e) :
    e.node.identifier = k := by
  have he := wf_entryOk h hm
  unfold entryOk at he
  simp only [Bool.and_eq_true, beq_iff_eq] at he
  exact he.1.1.1

theorem wf_childrenNodup (h : WF t) (hm : lookupNode t.nodes k = some e) :
    e.children.Nodup := by
  have he := wf_entryOk h hm
  unfold entryOk at he
  simp only [Bool.and_eq_true, decide_eq_true_eq] at he
  exact he.1.1.2

theorem wf_child_entry (h : WF t) (hm : lookupNode t.nodes k = some e)
    (hc : c ∈ e.children) :
    ∃ ce, lookupNode t.nodes c = some ce ∧ ce.parentId = some k := by
  have he := wf_entryOk h hm
  unfold entryOk at he
  simp only [Bool.and_eq_true, List.all_eq_true] at he
  have h2 := he.1.2 c hc
  cases hlc : lookupNode t.nodes c with
  | none => rw [hlc] at h2; simp at h2
  | some ce =>
    rw [hlc] at h2
    simp only [beq_iff_eq] at h2
    exact ⟨ce, rfl, h2⟩

theorem wf_parent_entry (h : WF t) (hm : lookupNode t.nodes k = some e)
    (hp : e.parentId = some p) :
    ∃ pe, lookupNode t.nodes p = some pe ∧ k ∈ pe.children := by
  have he := wf_entryOk h hm
  unfold entryOk at he
  simp only [Bool.and_eq_true] at he
  have h2 := he.2
  cases hlp : lookupNode t.nodes p with
  | none =>
    simp only [hp, hlp] at h2
    exact absurd h2 Bool.false_ne_true
  | some pe =>
    simp only [hp, hlp, List.contains_eq_any_beq, List.any_eq_true, beq_iff_eq] at h2
    obtain ⟨x, hx, hxk⟩ := h2
    exact ⟨pe, rfl, hxk ▸ hx⟩

theorem wf_root_entry (h : WF t) {r : String} (hr : t.root = some r) :
    ∃ re, lookupNode t.nodes r = some re ∧ re.parentId = none := by
  have h4 := (wfb_parts h).2.2.2
  rw [hr] at h4
  simp only [Bool.and_eq_true] at h4
  have h5 := h4.1
  cases hlr : lookupNode t.nodes r with
  | none => rw [hlr] at h5; simp at h5
  | some re =>
    rw [hlr] at h5
    simp only [beq_iff_eq] at h5
    exact ⟨re, rfl, h5⟩

theorem wf_parentId_none (h : WF t) (hm : lookupNode t.nodes k = some e)
    (hp : e.parentId = none) : t.root = some k := by
  have h4 := (wfb_parts h).2.2.2
  cases hr : t.root with
  | none => rw [hr] at h4; simp at h4
  | some r =>
    rw [hr] at h4
    simp only [Bool.and_eq_true, List.all_eq_true] at h4
    have h5 := h4.2 (k, e) (lookupNode_mem hm)
    simp only [Bool.or_eq_true, Bool.not_eq_true', beq_iff_eq, beq_eq_false_iff_ne] at h5
    cases h5 with
    | inl h5 => exact absurd hp h5
    | inr h5 => rw [h5]

theorem wf_parentId_some (h : WF t) (hm : lookupNode t.nodes k = some e)
    (hk : t.root ≠ some k) : ∃ p, e.parentId = some p := by
  cases hp : e.parentId with
  | none => exact absurd (wf_parentId_none h hm hp) hk
  | some p => exact ⟨p, rfl⟩

/-! ## The topological insertion order bounds parent indices -/

theorem topoOk_split :
    ∀ (l1 : NodeList) (seen : List String) (kv : String × TreeEntry) (l2 : NodeList),
      topoOk (l1 ++ kv :: l2) seen = true →
      ∀ p, kv.2.parentId = some p → p ∈ seen ∨ p ∈ keysOf l1 := by
  intro l1
  induction l1 with
  | nil =>
    intro seen kv l2 h p hp
    simp only [List.nil_append] at h
    unfold topoOk at h
    simp only [hp, Bool.and_eq_true] at h
    have h1 := h.1
    simp only [List.contains_eq_any_beq, List.any_eq_true, beq_iff_eq] at h1
    obtain ⟨x, hx, hxp⟩ := h1
    exact Or.inl (hxp ▸ hx)
  | cons x l1 ih =>
    intro seen kv l2 h p hp
    simp only [List.cons_append] at h
    unfold topoOk at h
    simp only [Bool.and_eq_true] at h
    rcases ih (x.1 :: seen) kv l2 h.2 p hp with h1 | h1
    · rcases List.mem_cons.mp h1 with h2 | h2
      · right
        rw [h2]
        exact List.mem_cons_self _ _
      · left
        exact h2
    · right
      exact List.mem_cons_of_mem _ h1

theorem wf_parent_lt (h : WF t) (hm : lookupNode t.nodes k = some e)
    (hp : e.parentId = some p) :
    (keysOf t.nodes).indexOf p < (keysOf t.nodes).indexOf k := by
  have hf : t.nodes.find? (fun kv => kv.1 == k) = some (k, e) := by
    unfold lookupNode at hm
    cases hf : t.nodes.find? (fun kv => kv.1 == k) with
    | none => rw [hf] at hm; simp at hm
    | some kv =>
      rw [hf] at hm
      have hk := List.find?_some hf
      simp only [beq_iff_eq] at hk
      replace hm : kv.2 = e := by simpa using hm
      cases kv with
      | mk a b =>
        simp only at hk hm
        rw [hk, hm]
  rw [List.find?_eq_some] at hf
  obtain ⟨-, l1, l2, hsplit, hnk⟩ := hf
  have hkeys : keysOf t.nodes = keysOf l1 ++ k :: keysOf l2 := by
    rw [hsplit]
    simp [keysOf]
  have hknot : k ∉ keysOf l1 := by
    intro hkin
    simp only [keysOf, List.mem_map] at hkin
    obtain ⟨kv, hkv, hkv1⟩ := hkin
    have := hnk kv hkv
    simp [hkv1] at this
  have htop := wf_topo h
  rw [hsplit] at htop
  have hsp := topoOk_split l1 [] (k, e) l2 htop p hp
  simp only [List.not_mem_nil, false_or] at hsp
  rw [hkeys]
  rw [List.indexOf_append_of_mem hsp, List.indexOf_append_of_not_mem hknot,
      List.indexOf_cons_self]
  have := List.indexOf_lt_length.mpr hsp
  omega

theorem wf_index_lt_length (hm : lookupNode t.nodes k = some e) :
    (keysOf t.nodes).indexOf k < t.nodes.length := by
  have hmem := mem_keysOf_of_lookup hm
  have := List.indexOf_lt_length.mpr hmem
  simpa [keysOf] using this

end WFLemmas

/-! ## Ancestor chains on a well-formed tree -/

section ChainLemmas

variable {t : AlarmTree} {k p c b x n ci cj : String} {e ce ec : TreeEntry}

theorem parentChain_succ {fuel : Nat} {l : NodeList} {k : String} :
    parentChain (fuel + 1) l k =
      (match lookupNode l k with
       | none => []
       | some e =>
         match e.parentId with
         | none => []
         | some p => p :: parentChain fuel l p) := rfl

theorem parentChain_congr (h : WF t) :
    ∀ fuel1 k, (keysOf t.nodes).indexOf k < fuel1 →
      ∀ fuel2, (keysOf t.nodes).indexOf k < fuel2 →
        parentChain fuel1 t.nodes k = parentChain fuel2 t.nodes k := by
  intro fuel1
  induction fuel1 with
  | zero => intro k h1; exact absurd h1 (Nat.not_lt_zero _)
  | succ f ih =>
    intro k h1 fuel2 h2
    cases fuel2 with
    | zero => exact absurd h2 (Nat.not_lt_zero _)
    | succ f2 =>
      rw [parentChain_succ, parentChain_succ]
      cases hlk : lookupNode t.nodes k with
      | none => simp only [hlk]
      | some e =>
        simp only [hlk]
        cases hpk : e.parentId with
        | none => simp only [hpk]
        | some p =>
          simp only [hpk]
          have hplt := wf_parent_lt h hlk hpk
          congr 1
          exact ih p (by omega) f2 (by omega)

theorem ancestors_unfold (h : WF t) (hm : lookupNode t.nodes k = some e)
    (hp : e.parentId = some p) :
    ancestors t.nodes k = p :: ancestors t.nodes p := by
  unfold ancestors
  have hik := wf_index_lt_length hm
  obtain ⟨pe, hlp, -⟩ := wf_parent_entry h hm hp
  have hip := wf_index_lt_length hlp
  have hplt := wf_parent_lt h hm hp
  cases hlen : t.nodes.length with
  | zero => omega
  | succ m =>
    rw [hlen] at hik hip
    rw [parentChain_succ]
    simp only [hm, hp]
    congr 1
    exact parentChain_congr h m p (by omega) (m + 1) (by omega)

theorem ancestors_nil_of_none (hm : lookupNode t.nodes k = none) :
    ancestors t.nodes k = [] := by
  unfold ancestors
  cases hlen : t.nodes.length with
  | zero => rfl
  | succ m =>
    rw [parentChain_succ]
    simp only [hm]

theorem ancestors_nil_of_root (hm : lookupNode t.nodes k = some e)
    (hp : e.parentId = none) :
    ancestors t.nodes k = [] := by
  unfold ancestors
  cases hlen : t.nodes.length with
  | zero => rfl
  | succ m =>
    rw [parentChain_succ]
    simp only [hm, hp]

theorem ancestors_cases (h : WF t) (hx : x ∈ ancestors t.nodes k) :
    ∃ e p, lookupNode t.nodes k = some e ∧ e.parentId = some p ∧
      (x = p ∨ x ∈ ancestors t.nodes p) := by
  cases hlk : lookupNode t.nodes k with
  | none =>
    rw [ancestors_nil_of_none hlk] at hx
    exact absurd hx (List.not_mem_nil _)
  | some e =>
    cases hpk : e.parentId with
    | none =>
      rw [ancestors_nil_of_root hlk hpk] at hx
      exact absurd hx (List.not_mem_nil _)
    | some p =>
      rw [ancestors_unfold h hlk hpk] at hx
      rcases List.mem_cons.mp hx with h1 | h1
      · exact ⟨e, p, rfl, hpk, Or.inl h1⟩
      · exact ⟨e, p, rfl, hpk, Or.inr h1⟩

theorem anc_index_lt_aux (h : WF t) :
    ∀ d k x, (keysOf t.nodes).indexOf k = d → x ∈ ancestors t.nodes k →
      (keysOf t.nodes).indexOf x < (keysOf t.nodes).indexOf k := by
  intro d
  induction d using Nat.strong_induction_on with
  | _ d ih =>
    intro k x hd hx
    obtain ⟨e, p, hlk, hpk, hcase⟩ := ancestors_cases h hx
    have hplt := wf_parent_lt h hlk hpk
    cases hcase with
    | inl h1 => subst h1; exact hplt
    | inr h1 =>
      subst hd
      have := ih ((keysOf t.nodes).indexOf p) (by omega) p x rfl h1
      omega

theorem anc_lt (h : WF t) (hx : x ∈ ancestors t.nodes k) :
    (keysOf t.nodes).indexOf x < (keysOf t.nodes).indexOf k :=
  anc_index_lt_aux h _ k x rfl hx

theorem anc_entry_aux (h : WF t) :
    ∀ d k x, (keysOf t.nodes).indexOf k = d → x ∈ ancestors t.nodes k →
      ∃ xe, lookupNode t.nodes x = some xe := by
  intro d
  induction d using Nat.strong_induction_on with
  | _ d ih =>
    intro k x hd hx
    obtain ⟨e, p, hlk, hpk, hcase⟩ := ancestors_cases h hx
    have hplt := wf_parent_lt h hlk hpk
    cases hcase with
    | inl h1 =>
      subst h1
      obtain ⟨pe, hlp, -⟩ := wf_parent_entry h hlk hpk
      exact ⟨pe, hlp⟩
    | inr h1 =>
      subst hd
      exact ih ((keysOf t.nodes).indexOf p) (by omega) p x rfl h1

theorem anc_entry (h : WF t) (hx : x ∈ ancestors t.nodes k) :
    ∃ xe, lookupNode t.nodes x = some xe :=
  anc_entry_aux h _ k x rfl hx

theorem anc_irrefl (h : WF t) : k ∉ ancestors t.nodes k :=
  fun hx => absurd (anc_lt h hx) (lt_irrefl _)

theorem anc_trans_aux (h : WF t) :
    ∀ d k, (keysOf t.nodes).indexOf k = d →
      ∀ b c, b ∈ ancestors t.nodes k → c ∈ ancestors t.nodes b →
        c ∈ ancestors t.nodes k := by
  intro d
  induction d using Nat.strong_induction_on with
  | _ d ih =>
    intro k hd b c hb hc
    obtain ⟨e, p, hlk, hpk, hcase⟩ := ancestors_cases h hb
    have hplt := wf_parent_lt h hlk hpk
    rw [ancestors_unfold h hlk hpk]
    cases hcase with
    | inl h1 =>
      subst h1
      exact List.mem_cons_of_mem _ hc
    | inr h1 =>
      subst hd
      exact List.mem_cons_of_mem _
        (ih ((keysOf t.nodes).indexOf p) (by omega) p rfl b c h1 hc)

theorem anc_trans (h : WF t) (hb : b ∈ ancestors t.nodes k)
    (hc : c ∈ ancestors t.nodes b) : c ∈ ancestors t.nodes k :=
  anc_trans_aux h _ k rfl b c hb hc

theorem anc_comparable_aux (h : WF t) :
    ∀ d k, (keysOf t.nodes).indexOf k = d →
      ∀ b c, b ∈ ancestors t.nodes k → c ∈ ancestors t.nodes k →
        b = c ∨ b ∈ ancestors t.nodes c ∨ c ∈ ancestors t.nodes b := by
  intro d
  induction d using Nat.strong_induction_on with
  | _ d ih =>
    intro k hd b c hb hc
    obtain ⟨e, p, hlk, hpk, hcaseb⟩ := ancestors_cases h hb
    have hplt := wf_parent_lt h hlk hpk
    rw [ancestors_unfold h hlk hpk] at hc
    rcases List.mem_cons.mp hc with hc1 | hc1
    · cases hcaseb with
      | inl h1 => exact Or.inl (h1.trans hc1.symm)
      | inr h1 => exact Or.inr (Or.inl (hc1 ▸ h1))
    · cases hcaseb with
      | inl h1 => exact Or.inr (Or.inr (h1 ▸ hc1))
      | inr h1 =>
        subst hd
        exact ih ((keysOf t.nodes).indexOf p) (by omega) p rfl b c h1 hc1

theorem anc_comparable (h : WF t) (hb : b ∈ ancestors t.nodes k)
    (hc : c ∈ ancestors t.nodes k) :
    b = c ∨ b ∈ ancestors t.nodes c ∨ c ∈ ancestors t.nodes b :=
  anc_comparable_aux h _ k rfl b c hb hc

theorem child_anc (h : WF t) (hm : lookupNode t.nodes c = some ce)
    (hp : ce.parentId = some p) : p ∈ ancestors t.nodes c := by
  rw [ancestors_unfold h hm hp]
  exact List.mem_cons_self _ _

theorem inSub_iff {l : NodeList} :
    inSubB l c k = true ↔ k = c ∨ c ∈ ancestors l k := by
  unfold inSubB
  simp only [Bool.or_eq_true, beq_iff_eq, List.contains_eq_any_beq,
    List.any_eq_true, beq_iff_eq]
  constructor
  · rintro (h1 | ⟨y, hy, hyc⟩)
    · exact Or.inl h1
    · exact Or.inr (hyc ▸ hy)
  · rintro (h1 | h1)
    · exact Or.inl h1
    · exact Or.inr ⟨c, h1, rfl⟩

theorem inSub_self {l : NodeList} : inSubB l c c = true := by
  rw [inSub_iff]
  exact Or.inl rfl

theorem anc_decompose_aux (h : WF t) (hc : lookupNode t.nodes c = some ec) :
    ∀ d k, (keysOf t.nodes).indexOf k = d → c ∈ ancestors t.nodes k →
      ∃ ci, ci ∈ ec.children ∧ inSubB t.nodes ci k = true := by
  intro d
  induction d using Nat.strong_induction_on with
  | _ d ih =>
    intro k hd hx
    obtain ⟨e, p, hlk, hpk, hcase⟩ := ancestors_cases h hx
    have hplt := wf_parent_lt h hlk hpk
    cases hcase with
    | inl h1 =>
      subst h1
      obtain ⟨pe, hlp, hkc⟩ := wf_parent_entry h hlk hpk
      rw [hc] at hlp
      cases hlp
      exact ⟨k, hkc, inSub_self⟩
    | inr h1 =>
      subst hd
      obtain ⟨ci, hci, hsub⟩ := ih ((keysOf t.nodes).indexOf p) (by omega) p rfl h1
      refine ⟨ci, hci, ?_⟩
      rw [inSub_iff] at hsub ⊢
      rw [ancestors_unfold h hlk hpk]
      cases hsub with
      | inl h2 => exact Or.inr (h2 ▸ List.mem_cons_self _ _)
      | inr h2 => exact Or.inr (List.mem_cons_of_mem _ h2)

theorem anc_decompose (h : WF t) (hc : lookupNode t.nodes c = some ec)
    (hx : c ∈ ancestors t.nodes k) :
    ∃ ci, ci ∈ ec.children ∧ inSubB t.nodes ci k = true :=
  anc_decompose_aux h hc _ k rfl hx

theorem child_sub (h : WF t) (hm : lookupNode t.nodes c = some ec)
    (hci : ci ∈ ec.children) (hk : inSubB t.nodes ci k = true) :
    c ∈ ancestors t.nodes k := by
  obtain ⟨cie, hlci, hpci⟩ := wf_child_entry h hm hci
  have hcanc : c ∈ ancestors t.nodes ci := child_anc h hlci hpci
  rw [inSub_iff] at hk
  cases hk with
  | inl h1 => exact h1 ▸ hcanc
  | inr h1 => exact anc_trans h h1 hcanc

theorem sub_of_child_sub (h : WF t) (hm : lookupNode t.nodes c = some ec)
    (hci : ci ∈ ec.children) (hk : inSubB t.nodes ci k = true) :
    inSubB t.nodes c k = true := by
  rw [inSub_iff]
  exact Or.inr (child_sub h hm hci hk)

theorem not_sub_parent (h : WF t) (hm : lookupNode t.nodes c = some ec)
    (hci : ci ∈ ec.children) : inSubB t.nodes ci c ≠ true := by
  intro hk
  obtain ⟨cie, hlci, hpci⟩ := wf_child_entry h hm hci
  have hlt := wf_parent_lt h hlci hpci
  rw [inSub_iff] at hk
  cases hk with
  | inl h1 => rw [h1] at hlt; omega
  | inr h1 => have := anc_lt h h1; omega

theorem sibling_disjoint (h : WF t) (hm : lookupNode t.nodes n = some e)
    (hi : ci ∈ e.children) (hj : cj ∈ e.children) (hne : ci ≠ cj) :
    ∀ k, inSubB t.nodes ci k = true → inSubB t.nodes cj k = true → False := by
  intro k hki hkj
  obtain ⟨cie, hlci, hpci⟩ := wf_child_entry h hm hi
  obtain ⟨cje, hlcj, hpcj⟩ := wf_child_entry h hm hj
  have hlti := wf_parent_lt h hlci hpci
  have hltj := wf_parent_lt h hlcj hpcj
  rw [inSub_iff] at hki hkj
  have hnotij : ci ∉ ancestors t.nodes cj := by
    intro hmem
    rw [ancestors_unfold h hlcj hpcj] at hmem
    rcases List.mem_cons.mp hmem with h1 | h1
    · rw [h1] at hlti; omega
    · have := anc_lt h h1; omega
  have hnotji : cj ∉ ancestors t.nodes ci := by
    intro hmem
    rw [ancestors_unfold h hlci hpci] at hmem
    rcases List.mem_cons.mp hmem with h1 | h1
    · rw [h1] at hltj; omega
    · have := anc_lt h h1; omega
  cases hki with
  | inl h1 =>
    cases hkj with
    | inl h2 => exact hne (h1.symm.trans h2)
    | inr h2 => exact hnotji (h1 ▸ h2)
  | inr h1 =>
    cases hkj with
    | inl h2 =>
      exact hnotij (h2 ▸ h1)
    | inr h2 =>
      rcases anc_comparable h h1 h2 with h3 | h3 | h3
      · exact hne h3
      · exact hnotij h3
      · exact hnotji h3

end ChainLemmas

/-! ## The removal recursion removes exactly the subtree -/

section RemoveLemmas

open AlarmTree

variable {t : AlarmTree} {c k : String} {e : TreeEntry}

theorem keysOf_filterKey {l : NodeList} {p : String → Bool} :
    keysOf (l.filter (fun kv => p kv.1)) = (keysOf l).filter p := by
  induction l with
  | nil => rfl
  | cons kv rest ih =>
    rw [List.filter_cons]
    show _ = List.filter p (kv.1 :: keysOf rest)
    rw [List.filter_cons]
    by_cases hp : p kv.1
    · simp only [hp, if_true]
      show kv.1 :: keysOf _ = _
      rw [ih]
    · simp only [hp, Bool.false_eq_true, if_false]
      exact ih

theorem length_filter_beq_one {l : List String} (hnd : l.Nodup) (hm : c ∈ l) :
    (l.filter (fun x => x == c)).length = 1 := by
  have h1 : (l.filter (fun x => x == c)).length = l.countP (fun x => x == c) :=
    (List.countP_eq_length_filter _ _).symm
  rw [h1]
  show l.count c = 1
  exact List.count_eq_one_of_mem hnd hm

/-- The subtree of `c` is `c` itself plus the union of the subtrees of the
children of `c`. -/
theorem inSub_decomp (h : WF t) (hMe : lookupNode t.nodes c = some e) (k : String) :
    inSubB t.nodes c k = true ↔
      (k = c ∨ e.children.any (fun x => inSubB t.nodes x k) = true) := by
  constructor
  · intro hk
    rw [inSub_iff] at hk
    cases hk with
    | inl h1 => exact Or.inl h1
    | inr h1 =>
      obtain ⟨ci, hci, hsub⟩ := anc_decompose h hMe h1
      refine Or.inr ?_
      rw [List.any_eq_true]
      exact ⟨ci, hci, hsub⟩
  · intro hk
    cases hk with
    | inl h1 =>
      rw [h1]
      exact inSub_self
    | inr h1 =>
      rw [List.any_eq_true] at h1
      obtain ⟨ci, hci, hsub⟩ := h1
      exact sub_of_child_sub h hMe hci hsub

/-- Main lemma on the removal work list: over an ambient well-formed tree
`t`, running the removal recursion on a sub-dict `N` that still agrees with
`t.nodes` on the pending subtrees removes exactly the union of those subtrees
and counts the removed entries. -/
theorem removeRecF_spec (h : WF t) :
    ∀ (fuel : Nat) (N : NodeList) (cs : List String),
      (∀ c1, c1 ∈ cs → ∀ k, inSubB t.nodes c1 k = true →
        lookupNode N k = lookupNode t.nodes k) →
      (∀ c1, c1 ∈ cs → ∃ e1, lookupNode t.nodes c1 = some e1) →
      List.Pairwise (fun a b => ∀ k,
        inSubB t.nodes a k = true → inSubB t.nodes b k = true → False) cs →
      (keysOf N).Nodup →
      N.length + 1 ≤ fuel →
      removeRecF fuel N cs =
        some (N.filter (fun kv => !(cs.any (fun c1 => inSubB t.nodes c1 kv.1))),
              (N.filter (fun kv => cs.any (fun c1 => inSubB t.nodes c1 kv.1))).length) := by
  intro fuel
  induction fuel with
  | zero =>
    intro N cs _ _ _ _ hfuel
    omega
  | succ f ih =>
    intro N cs hagree hent hpair hnd hfuel
    cases cs with
    | nil => simp [removeRecF]
    | cons c cs =>
      have hcmem : c ∈ c :: cs := List.mem_cons_self _ _
      obtain ⟨e, hMe⟩ := hent c hcmem
      have hNe : lookupNode N c = some e := by
        rw [hagree c hcmem c inSub_self, hMe]
      have hpairhead : ∀ b ∈ cs, ∀ k,
          inSubB t.nodes c k = true → inSubB t.nodes b k = true → False :=
        (List.pairwise_cons.mp hpair).1
      -- facts about keys in the subtree of a child of c
      have hchildsub_ne : ∀ ci ∈ e.children, ∀ k,
          inSubB t.nodes ci k = true → k ≠ c := by
        intro ci hci k hki hkc
        exact not_sub_parent h hMe hci (hkc ▸ hki)
      have hcssub_ne : ∀ b ∈ cs, ∀ k, inSubB t.nodes b k = true → k ≠ c := by
        intro b hb k hkb hkc
        exact hpairhead b hb c inSub_self (hkc ▸ hkb)
      -- one unfolding step of the recursion
      have hstep : removeRecF (f + 1) N (c :: cs) =
          (removeRecF f (eraseKey N c) (e.children ++ cs)).map
            (fun r => (r.1, r.2 + 1)) := by
        simp only [removeRecF, hNe]
      rw [hstep]
      -- the inductive hypothesis applies to the extended work list
      have hagree2 : ∀ c1, c1 ∈ e.children ++ cs → ∀ k,
          inSubB t.nodes c1 k = true →
            lookupNode (eraseKey N c) k = lookupNode t.nodes k := by
        intro c1 hc1 k hk
        rcases List.mem_append.mp hc1 with hc1 | hc1
        · have hne := hchildsub_ne c1 hc1 k hk
          rw [lookupNode_eraseKey_ne hne]
          exact hagree c hcmem k (sub_of_child_sub h hMe hc1 hk)
        · have hne := hcssub_ne c1 hc1 k hk
          rw [lookupNode_eraseKey_ne hne]
          exact hagree c1 (List.mem_cons_of_mem _ hc1) k hk
      have hent2 : ∀ c1, c1 ∈ e.children ++ cs → ∃ e1, lookupNode t.nodes c1 = some e1 := by
        intro c1 hc1
        rcases List.mem_append.mp hc1 with hc1 | hc1
        · obtain ⟨ce, hce, -⟩ := wf_child_entry h hMe hc1
          exact ⟨ce, hce⟩
        · exact hent c1 (List.mem_cons_of_mem _ hc1)
      have hpair2 : List.Pairwise (fun a b => ∀ k,
          inSubB t.nodes a k = true → inSubB t.nodes b k = true → False)
          (e.children ++ cs) := by
        rw [List.pairwise_append]
        refine ⟨?_, (List.pairwise_cons.mp hpair).2, ?_⟩
        · have hndc := wf_childrenNodup h hMe
          exact hndc.imp_of_mem (fun ha hb hne =>
            sibling_disjoint h hMe ha hb hne)
        · intro a ha b hb k hka hkb
          exact hpairhead b hb k (sub_of_child_sub h hMe ha hka) hkb
      have hnd2 : (keysOf (eraseKey N c)).Nodup := by
        have hh : keysOf (eraseKey N c) = (keysOf N).filter (fun x => x != c) :=
          @keysOf_filterKey N (fun x => x != c)
        rw [hh]
        exact hnd.filter _
      have hcKeys : c ∈ keysOf N := mem_keysOf_of_lookup hNe
      have hlen2 : (eraseKey N c).length + 1 ≤ f := by
        have := length_eraseKey_lt hcKeys
        omega
      rw [ih (eraseKey N c) (e.children ++ cs) hagree2 hent2 hpair2 hnd2 hlen2]
      -- rewrite both components
      have hpointwise : ∀ kv : String × TreeEntry,
          ((c :: cs).any (fun c1 => inSubB t.nodes c1 kv.1) = true) ↔
            (kv.1 = c ∨ (e.children ++ cs).any (fun c1 => inSubB t.nodes c1 kv.1) = true) := by
        intro kv
        simp only [List.any_cons, List.any_append, Bool.or_eq_true]
        rw [inSub_decomp h hMe]
        tauto
      have hmap : (eraseKey N c).filter
            (fun kv => !((e.children ++ cs).any (fun c1 => inSubB t.nodes c1 kv.1)))
          = N.filter (fun kv => !((c :: cs).any (fun c1 => inSubB t.nodes c1 kv.1))) := by
        unfold eraseKey
        rw [List.filter_filter]
        apply List.filter_congr
        intro kv _
        by_cases hc1 : kv.1 = c
        · have hany : (c :: cs).any (fun c1 => inSubB t.nodes c1 kv.1) = true :=
            (hpointwise kv).mpr (Or.inl hc1)
          rw [hany]
          simp [hc1]
        · have hb : ((c :: cs).any (fun c1 => inSubB t.nodes c1 kv.1))
              = ((e.children ++ cs).any (fun c1 => inSubB t.nodes c1 kv.1)) := by
            cases hany : (e.children ++ cs).any (fun c1 => inSubB t.nodes c1 kv.1) with
            | true => exact (hpointwise kv).mpr (Or.inr hany)
            | false =>
              cases hany2 : (c :: cs).any (fun c1 => inSubB t.nodes c1 kv.1) with
              | false => rfl
              | true =>
                rcases (hpointwise kv).mp hany2 with h1 | h1
                · exact absurd h1 hc1
                · rw [h1] at hany
                  exact absurd hany (by simp)
          simp [hc1, hb]
      have hcount : ((eraseKey N c).filter
            (fun kv => (e.children ++ cs).any (fun c1 => inSubB t.nodes c1 kv.1))).length + 1
          = (N.filter (fun kv => (c :: cs).any (fun c1 => inSubB t.nodes c1 kv.1))).length := by
        have hsub_ne : ∀ kv : String × TreeEntry,
            (e.children ++ cs).any (fun c1 => inSubB t.nodes c1 kv.1) = true → kv.1 ≠ c := by
          intro kv hkv
          rw [List.any_eq_true] at hkv
          obtain ⟨c1, hc1, hk1⟩ := hkv
          rcases List.mem_append.mp hc1 with hc1 | hc1
          · exact hchildsub_ne c1 hc1 kv.1 hk1
          · exact hcssub_ne c1 hc1 kv.1 hk1
        have h1 : (eraseKey N c).filter
              (fun kv => (e.children ++ cs).any (fun c1 => inSubB t.nodes c1 kv.1))
            = N.filter (fun kv => (e.children ++ cs).any (fun c1 => inSubB t.nodes c1 kv.1)) := by
          unfold eraseKey
          rw [List.filter_filter]
          apply List.filter_congr
          intro kv _
          by_cases hsub : (e.children ++ cs).any (fun c1 => inSubB t.nodes c1 kv.1)
          · simp [hsub, hsub_ne kv hsub]
          · simp [hsub]
        have h2 : N.filter (fun kv => (c :: cs).any (fun c1 => inSubB t.nodes c1 kv.1))
            = N.filter (fun kv =>
                (kv.1 == c) || (e.children ++ cs).any (fun c1 => inSubB t.nodes c1 kv.1)) := by
          apply List.filter_congr
          intro kv _
          by_cases hc1 : kv.1 = c
          · have hany : (c :: cs).any (fun c1 => inSubB t.nodes c1 kv.1) = true :=
              (hpointwise kv).mpr (Or.inl hc1)
            rw [hany]
            simp [hc1]
          · have hb : ((c :: cs).any (fun c1 => inSubB t.nodes c1 kv.1))
                = ((e.children ++ cs).any (fun c1 => inSubB t.nodes c1 kv.1)) := by
              cases hany : (e.children ++ cs).any (fun c1 => inSubB t.nodes c1 kv.1) with
              | true => exact (hpointwise kv).mpr (Or.inr hany)
              | false =>
                cases hany2 : (c :: cs).any (fun c1 => inSubB t.nodes c1 kv.1) with
                | false => rfl
                | true =>
                  rcases (hpointwise kv).mp hany2 with h3 | h3
                  · exact absurd h3 hc1
                  · rw [h3] at hany
                    exact absurd hany (by simp)
            simp [hc1, hb]
        have h3 := length_filter_or N (fun kv => kv.1 == c)
          (fun kv => (e.children ++ cs).any (fun c1 => inSubB t.nodes c1 kv.1))
          (by
            intro kv hkc hkany
            simp only [beq_iff_eq] at hkc
            exact hsub_ne kv hkany hkc)
        have h4 : (N.filter (fun kv => kv.1 == c)).length = 1 := by
          have h5 : (N.filter (fun kv => kv.1 == c)).length
              = ((keysOf N).filter (fun x => x == c)).length :=
            @countP_keys N (fun x => x == c)
          rw [h5]
          exact length_filter_beq_one hnd hcKeys
        rw [h1, h2, h3, h4]
        omega
      simp only [Option.map_some']
      rw [hmap, hcount]

end RemoveLemmas

/-! ## Claims C7 and C8: the FilterExpression translator -/

open AlarmFilter in
/-- **C7** (code bug): a `FilterExpression` with `expr="test:ai1"`, `value=5`,
`enabling=true` serializes to exactly the legacy line
`"$FORCEPV test:ai1 ----- 5 NE"`, as the claim states; but its target
(phoebus) string is `"test:ai1 == 5"`, not the `"(test:ai1) == 5"` stated by
the claim and asserted by the repository's own test `test_simple_pv`: since
no replacement slot is populated, `get_phoebus_filter` strips the parentheses
from the format string. -/
theorem c7_filter_eval :
    get_alh_force ⟨"test:ai1", .int 5, "", "", "", "", "", "", true⟩ true
      = ["$FORCEPV test:ai1 ----- 5 NE"] ∧
    get_phoebus_filter ⟨"test:ai1", .int 5, "", "", "", "", "", "", true⟩
      = "test:ai1 == 5" := by
  exact ⟨by decide, by decide⟩

open AlarmFilter in
/-- **C8** (confirmed): for every `FilterExpression`, the target string wraps
the rewritten (and, when any slot is populated, slot-substituted) expression
as `(expr) == value` when enabling and `(expr) != value` otherwise, except
that the boolean-shortcut value `True` yields `expr` resp. `!(expr)` with no
comparison appended; and whenever no replacement slot is populated the
parentheses are omitted entirely from the result. -/
theorem get_phoebus_filter_shape (f : AlarmFilter) :
    get_phoebus_filter f =
      if hasRepl f then
        if f.value = .tru then
          (if f.enabling then substitutedExpr f
           else "!(" ++ substitutedExpr f ++ ")")
        else
          (if f.enabling then "(" ++ substitutedExpr f ++ ") == " ++ pyValStrPhoebus f.value
           else "(" ++ substitutedExpr f ++ ") != " ++ pyValStrPhoebus f.value)
      else
        if f.value = .tru then
          (if f.enabling then rewrittenExpr f
           else "!" ++ rewrittenExpr f)
        else
          (if f.enabling then rewrittenExpr f ++ " == " ++ pyValStrPhoebus f.value
           else rewrittenExpr f ++ " != " ++ pyValStrPhoebus f.value) := by
  have heq : ∀ e v : String,
      String.mk (pyFormat "(\x7bexpr\x7d) == \x7bval\x7d".data [("expr", e), ("val", v)])
        = "(" ++ e ++ ") == " ++ v := by
    intro e v; apply String.ext; simp [pyFormat, pyFormatF, String.data_append]
  have hne : ∀ e v : String,
      String.mk (pyFormat "(\x7bexpr\x7d) != \x7bval\x7d".data [("expr", e), ("val", v)])
        = "(" ++ e ++ ") != " ++ v := by
    intro e v; apply String.ext; simp [pyFormat, pyFormatF, String.data_append]
  have htru : ∀ e v : String,
      String.mk (pyFormat "\x7bexpr\x7d".data [("expr", e), ("val", v)]) = e := by
    intro e v; apply String.ext; simp [pyFormat, pyFormatF, String.data_append]
  have hnot : ∀ e v : String,
      String.mk (pyFormat "!(\x7bexpr\x7d)".data [("expr", e), ("val", v)])
        = "!(" ++ e ++ ")" := by
    intro e v; apply String.ext; simp [pyFormat, pyFormatF, String.data_append]
  have heq2 : ∀ e v : String,
      String.mk (pyFormat (stripParens "(\x7bexpr\x7d) == \x7bval\x7d".data)
        [("expr", e), ("val", v)]) = e ++ " == " ++ v := by
    intro e v; apply String.ext
    simp [pyFormat, pyFormatF, stripParens, String.data_append]
  have hne2 : ∀ e v : String,
      String.mk (pyFormat (stripParens "(\x7bexpr\x7d) != \x7bval\x7d".data)
        [("expr", e), ("val", v)]) = e ++ " != " ++ v := by
    intro e v; apply String.ext
    simp [pyFormat, pyFormatF, stripParens, String.data_append]
  have htru2 : ∀ e v : String,
      String.mk (pyFormat (stripParens "\x7bexpr\x7d".data) [("expr", e), ("val", v)])
        = e := by
    intro e v; apply String.ext
    simp [pyFormat, pyFormatF, stripParens, String.data_append]
  have hnot2 : ∀ e v : String,
      String.mk (pyFormat (stripParens "!(\x7bexpr\x7d)".data) [("expr", e), ("val", v)])
        = "!" ++ e := by
    intro e v; apply String.ext
    simp [pyFormat, pyFormatF, stripParens, String.data_append]
  unfold get_phoebus_filter substitutedExpr rewrittenExpr formatRepl
  by_cases h1 : hasRepl f = true <;> by_cases h2 : f.value = .tru <;>
    by_cases h3 : f.enabling = true <;>
      simp only [h1, h2, h3, Bool.false_eq_true, ite_true, ite_false, if_true, if_false,
        heq, hne, htru, hnot, heq2, hne2, htru2, hnot2]

/-! ## The successful removal, as a reusable lemma -/

/-- Successful `remove_node` of a non-root node on a well-formed tree: the
parent loses the child link and exactly the subtree entries disappear, with
`1 +` the strict-descendant count reported. -/
theorem remove_node_ok (t : AlarmTree) (h : WF t) {nid pid : String}
    {e pe : TreeEntry}
    (hroot : t.root ≠ some nid)
    (hm : lookupNode t.nodes nid = some e)
    (hp : e.parentId = some pid)
    (hpe : lookupNode t.nodes pid = some pe) :
    AlarmTree.remove_node t nid =
      .ok ({ nodes := (setKey t.nodes pid ⟨pe.node, pe.parentId, pe.children.erase nid⟩).filter
                (fun kv => !(inSubB t.nodes nid kv.1)),
             root := t.root }, 1 + descCount t nid) := by
  have hcond : ¬ (t.root == some nid) = true := by
    simp only [beq_iff_eq]
    exact hroot
  obtain ⟨pe2, hpe2, hmemc⟩ := wf_parent_entry h hm hp
  rw [hpe] at hpe2
  injection hpe2 with hpe2
  subst hpe2
  have hcont : pe.children.contains nid = true := by
    rw [List.contains_eq_any_beq, List.any_eq_true]
    exact ⟨nid, hmemc, by simp⟩
  have hagree : ∀ c1, c1 ∈ [nid] → ∀ k, inSubB t.nodes c1 k = true →
      lookupNode (setKey t.nodes pid ⟨pe.node, pe.parentId, pe.children.erase nid⟩) k
        = lookupNode t.nodes k := by
    intro c1 hc1 k hk
    have hc1n : c1 = nid := List.mem_singleton.mp hc1
    subst hc1n
    apply lookupNode_setKey_ne
    intro hkp
    subst hkp
    rw [inSub_iff] at hk
    have hlt := wf_parent_lt h hm hp
    rcases hk with hk | hk
    · rw [hk] at hlt
      omega
    · have h1 := anc_lt h hk
      omega
  have hent : ∀ c1, c1 ∈ [nid] → ∃ e1, lookupNode t.nodes c1 = some e1 := by
    intro c1 hc1
    have hc1n : c1 = nid := List.mem_singleton.mp hc1
    subst hc1n
    exact ⟨e, hm⟩
  have hpair : List.Pairwise (fun a b => ∀ k,
      inSubB t.nodes a k = true → inSubB t.nodes b k = true → False) [nid] :=
    List.pairwise_singleton _ _
  have hnd : (keysOf (setKey t.nodes pid
      ⟨pe.node, pe.parentId, pe.children.erase nid⟩)).Nodup := by
    rw [keysOf_setKey]
    exact wf_keysNodup h
  have hrec := removeRecF_spec h
    ((setKey t.nodes pid ⟨pe.node, pe.parentId, pe.children.erase nid⟩).length + 1)
    (setKey t.nodes pid ⟨pe.node, pe.parentId, pe.children.erase nid⟩)
    [nid] hagree hent hpair hnd (Nat.le_refl _)
  simp only [List.any_cons, List.any_nil, Bool.or_false] at hrec
  have hcount : ((setKey t.nodes pid ⟨pe.node, pe.parentId, pe.children.erase nid⟩).filter
      (fun kv => inSubB t.nodes nid kv.1)).length = 1 + descCount t nid := by
    have h1 := @countP_keys
      (setKey t.nodes pid ⟨pe.node, pe.parentId, pe.children.erase nid⟩)
      (fun k => inSubB t.nodes nid k)
    rw [h1, keysOf_setKey, ← @countP_keys t.nodes (fun k => inSubB t.nodes nid k)]
    have h2 : t.nodes.filter (fun kv => inSubB t.nodes nid kv.1)
        = t.nodes.filter (fun kv =>
            (kv.1 == nid) || (ancestors t.nodes kv.1).contains nid) := by
      simp only [inSubB]
    rw [h2, length_filter_or t.nodes (fun kv => kv.1 == nid)
      (fun kv => (ancestors t.nodes kv.1).contains nid)
      (by
        intro kv hkc hkany
        simp only [beq_iff_eq] at hkc
        simp only [List.contains_eq_any_beq, List.any_eq_true] at hkany
        obtain ⟨x, hx, hxn⟩ := hkany
        simp only [beq_iff_eq] at hxn
        subst hxn
        rw [hkc] at hx
        exact anc_irrefl h hx)]
    have h3 : (t.nodes.filter (fun kv => kv.1 == nid)).length = 1 := by
      rw [@countP_keys t.nodes (fun x => x == nid)]
      exact length_filter_beq_one (wf_keysNodup h) (mem_keysOf_of_lookup hm)
    rw [h3]
    rfl
  simp only [AlarmTree.remove_node, hcond, Bool.false_eq_true, if_false, hm, hp, hpe,
    hcont, if_true]
  rw [hrec, hcount]

/-! ## Claim C1: remove_node removes exactly the subtree and counts it -/

/-- **C1** (confirmed): on a well-formed tree, `remove_node` of a non-root
node unhooks the node from its parent and deletes exactly the node's
subtree, returning `1 +` the number of strict descendants; `remove_node` of
the root fails with `RootNodeRemovalError` (and, being an `error`, mutates
nothing). -/
theorem c1_remove_node (t : AlarmTree) (h : WF t) :
    (∀ nid e pid pe,
      t.root ≠ some nid →
      lookupNode t.nodes nid = some e →
      e.parentId = some pid →
      lookupNode t.nodes pid = some pe →
      AlarmTree.remove_node t nid =
        .ok ({ nodes := (setKey t.nodes pid ⟨pe.node, pe.parentId, pe.children.erase nid⟩).filter
                  (fun kv => !(inSubB t.nodes nid kv.1)),
               root := t.root }, 1 + descCount t nid)) ∧
    (∀ r, t.root = some r → AlarmTree.remove_node t r = .error .rootRemoval) := by
  constructor
  · intro nid e pid pe hroot hm hp hpe
    exact remove_node_ok t h hroot hm hp hpe
  · intro r hr
    simp only [AlarmTree.remove_node, hr, beq_self_eq_true, if_true]

/-- Concrete run of `c1_remove_node` on the chain `R → R/a → R/a/b`:
removing `R/a` leaves only the root (with an empty child list) and reports
2 removed nodes. -/
theorem c1_remove_node_witness :
    WF egTree1 ∧
    AlarmTree.remove_node egTree1 "R/a"
      = .ok ({ nodes := [("R", ⟨ANode.baseNode "R" "R" 0, none, []⟩)],
               root := some "R" }, 2) := by
  have h : WF egTree1 := by unfold WF; decide
  refine ⟨h, ?_⟩
  have h2 := (c1_remove_node egTree1 h).1 "R/a"
    ⟨egGroup "R/a" "a" 0, some "R", ["R/a/b"]⟩ "R"
    ⟨ANode.baseNode "R" "R" 0, none, ["R/a"]⟩
    (by decide) (by decide) rfl (by decide)
  exact h2.trans (by rfl)

/-! ## Lemmas for link_past_node -/

section LinkPastLemmas

open AlarmTree

variable {t : AlarmTree}

theorem eraseKey_eq_self {l : NodeList} {k : String} (h : k ∉ keysOf l) :
    eraseKey l k = l := by
  unfold eraseKey
  apply List.filter_eq_self.mpr
  intro kv hkv
  simp only [bne_iff_ne, ne_eq]
  intro hk
  exact h (hk ▸ List.mem_map_of_mem (fun kv => kv.1) hkv)

theorem length_eraseKey_eq {l : NodeList} {k : String} (hnd : (keysOf l).Nodup)
    (hm : k ∈ keysOf l) : (eraseKey l k).length = l.length - 1 := by
  induction l with
  | nil => simp [keysOf] at hm
  | cons kv rest ih =>
    rw [eraseKey_cons]
    have hkeys : keysOf (kv :: rest) = kv.1 :: keysOf rest := rfl
    rw [hkeys] at hnd hm
    by_cases hk : kv.1 = k
    · rw [if_pos hk]
      have hnot : k ∉ keysOf rest := by
        rw [← hk]
        exact (List.nodup_cons.mp hnd).1
      rw [eraseKey_eq_self hnot]
      simp
    · have h2 : k ∈ keysOf rest := by
        rcases List.mem_cons.mp hm with h2 | h2
        · exact absurd h2.symm hk
        · exact h2
      have h3 : 0 < (keysOf rest).length := List.length_pos_of_mem h2
      have h4 : (keysOf rest).length = rest.length := by simp [keysOf]
      rw [if_neg hk]
      simp only [List.length_cons, ih (List.nodup_cons.mp hnd).2 h2]
      omega

/-- The child-relink loop of `link_past_node`: with all pending children
present and pairwise distinct it succeeds, rewrites exactly their parent
links, and keeps everything else (and the key list) unchanged. -/
theorem reparent_spec :
    ∀ (cids : List String) (ns : NodeList) (pid : String),
      (∀ cid, cid ∈ cids → ∃ ce, lookupNode ns cid = some ce) →
      cids.Nodup →
      ∃ ns2, reparent ns cids pid = .ok ns2 ∧
        (∀ cid ce, cid ∈ cids → lookupNode ns cid = some ce →
          lookupNode ns2 cid = some ⟨ce.node, some pid, ce.children⟩) ∧
        (∀ k, k ∉ cids → lookupNode ns2 k = lookupNode ns k) ∧
        ns2.length = ns.length ∧ keysOf ns2 = keysOf ns := by
  intro cids
  induction cids with
  | nil =>
    intro ns pid _ _
    exact ⟨ns, rfl, by simp, fun k _ => rfl, rfl, rfl⟩
  | cons cid rest ih =>
    intro ns pid hent hnd
    obtain ⟨ce, hce⟩ := hent cid (List.mem_cons_self _ _)
    have hnotin : cid ∉ rest := (List.nodup_cons.mp hnd).1
    have hent2 : ∀ c1, c1 ∈ rest → ∃ ce1,
        lookupNode (setKey ns cid ⟨ce.node, some pid, ce.children⟩) c1 = some ce1 := by
      intro c1 hc1
      by_cases hc : c1 = cid
      · subst hc
        exact absurd hc1 hnotin
      · rw [lookupNode_setKey_ne hc]
        exact hent c1 (List.mem_cons_of_mem _ hc1)
    obtain ⟨ns2, hrun, hset, hframe, hlen, hkeys⟩ :=
      ih (setKey ns cid ⟨ce.node, some pid, ce.children⟩) pid hent2
        (List.nodup_cons.mp hnd).2
    refine ⟨ns2, ?_, ?_, ?_, ?_, ?_⟩
    · show reparent ns (cid :: rest) pid = .ok ns2
      simp only [reparent, hce]
      exact hrun
    · intro c1 ce1 hc1 hlc1
      rcases List.mem_cons.mp hc1 with h1 | h1
      · subst h1
        rw [hce] at hlc1
        injection hlc1 with hlc1
        subst hlc1
        rw [hframe c1 hnotin, lookupNode_setKey_self (mem_keysOf_of_lookup hce)]
      · have hc : c1 ≠ cid := fun hh => hnotin (hh ▸ h1)
        exact hset c1 ce1 h1 (by rw [lookupNode_setKey_ne hc]; exact hlc1)
    · intro k hk
      have hk1 : k ≠ cid := fun hh => hk (hh ▸ List.mem_cons_self _ _)
      have hk2 : k ∉ rest := fun hh => hk (List.mem_cons_of_mem _ hh)
      rw [hframe k hk2, lookupNode_setKey_ne hk1]
    · rw [hlen, length_setKey]
    · rw [hkeys, keysOf_setKey]

end LinkPastLemmas

/-! ## Claim C2: link_past_node splices the children into the parent -/

/-- **C2** (confirmed): on a well-formed tree, `link_past_node` of a
non-root node drops exactly that node (count decreases by one), appends its
children — in their original relative order — to the former parent's child
list, rewrites exactly the children's parent links (node data, sort keys and
child lists, hence subtrees, untouched), leaves every other entry unchanged,
and errors with `RootNodeRemovalError` on the root. -/
theorem c2_link_past_node (t : AlarmTree) (h : WF t) :
    (∀ nid e pid pe,
      lookupNode t.nodes nid = some e →
      e.parentId = some pid →
      lookupNode t.nodes pid = some pe →
      ∃ t2, AlarmTree.link_past_node t nid = .ok t2 ∧
        t2.root = t.root ∧
        t2.nodes.length = t.nodes.length - 1 ∧
        lookupNode t2.nodes nid = none ∧
        lookupNode t2.nodes pid
          = some ⟨pe.node, pe.parentId, pe.children.erase nid ++ e.children⟩ ∧
        (∀ cid ce, cid ∈ e.children → lookupNode t.nodes cid = some ce →
          lookupNode t2.nodes cid = some ⟨ce.node, some pid, ce.children⟩) ∧
        (∀ k, k ≠ nid → k ≠ pid → k ∉ e.children →
          lookupNode t2.nodes k = lookupNode t.nodes k)) ∧
    (∀ r, t.root = some r → AlarmTree.link_past_node t r = .error .rootRemoval) := by
  constructor
  · intro nid e pid pe hm hp hpe
    obtain ⟨pe2, hpe2, hmemc⟩ := wf_parent_entry h hm hp
    rw [hpe] at hpe2
    injection hpe2 with hpe2
    subst hpe2
    have hcont : pe.children.contains nid = true := by
      rw [List.contains_eq_any_beq, List.any_eq_true]
      exact ⟨nid, hmemc, by simp⟩
    have hltp := wf_parent_lt h hm hp
    have hchild_ne_nid : ∀ cid, cid ∈ e.children → cid ≠ nid := by
      intro cid hcid hceq
      obtain ⟨ce, hlc, hpc⟩ := wf_child_entry h hm hcid
      have h1 := wf_parent_lt h hlc hpc
      rw [hceq] at h1
      omega
    have hchild_ne_pid : ∀ cid, cid ∈ e.children → cid ≠ pid := by
      intro cid hcid hceq
      obtain ⟨ce, hlc, hpc⟩ := wf_child_entry h hm hcid
      have h1 := wf_parent_lt h hlc hpc
      rw [hceq] at h1
      omega
    have hent2 : ∀ cid, cid ∈ e.children → ∃ ce, lookupNode
        (eraseKey (setKey t.nodes pid
          ⟨pe.node, pe.parentId, pe.children.erase nid ++ e.children⟩) nid) cid
          = some ce := by
      intro cid hcid
      obtain ⟨ce, hlc, -⟩ := wf_child_entry h hm hcid
      refine ⟨ce, ?_⟩
      rw [lookupNode_eraseKey_ne (hchild_ne_nid cid hcid),
          lookupNode_setKey_ne (hchild_ne_pid cid hcid)]
      exact hlc
    obtain ⟨ns2, hrun, hset, hframe, hlen, hkeys⟩ :=
      reparent_spec e.children
        (eraseKey (setKey t.nodes pid
          ⟨pe.node, pe.parentId, pe.children.erase nid ++ e.children⟩) nid)
        pid hent2 (wf_childrenNodup h hm)
    have hnd1 : (keysOf (setKey t.nodes pid
        ⟨pe.node, pe.parentId, pe.children.erase nid ++ e.children⟩)).Nodup := by
      rw [keysOf_setKey]
      exact wf_keysNodup h
    have hmem1 : nid ∈ keysOf (setKey t.nodes pid
        ⟨pe.node, pe.parentId, pe.children.erase nid ++ e.children⟩) := by
      rw [keysOf_setKey]
      exact mem_keysOf_of_lookup hm
    have hnid_notchild : nid ∉ e.children := fun hh => (hchild_ne_nid nid hh) rfl
    have hpid_notchild : pid ∉ e.children := fun hh => (hchild_ne_pid pid hh) rfl
    have hpid_ne_nid : pid ≠ nid := by
      intro hh
      rw [hh] at hltp
      omega
    refine ⟨⟨ns2, t.root⟩, ?_, rfl, ?_, ?_, ?_, ?_, ?_⟩
    · simp only [AlarmTree.link_past_node, hm, hp, hpe, hcont, if_true]
      rw [hrun]
      rfl
    · show ns2.length = t.nodes.length - 1
      rw [hlen, length_eraseKey_eq hnd1 hmem1, length_setKey]
    · show lookupNode ns2 nid = none
      rw [hframe nid hnid_notchild, lookupNode_eraseKey_self]
    · show lookupNode ns2 pid = _
      rw [hframe pid hpid_notchild, lookupNode_eraseKey_ne hpid_ne_nid,
          lookupNode_setKey_self (mem_keysOf_of_lookup hpe)]
    · intro cid ce hcid hlc
      apply hset cid ce hcid
      rw [lookupNode_eraseKey_ne (hchild_ne_nid cid hcid),
          lookupNode_setKey_ne (hchild_ne_pid cid hcid)]
      exact hlc
    · intro k hknid hkpid hkch
      show lookupNode ns2 k = _
      rw [hframe k hkch, lookupNode_eraseKey_ne hknid, lookupNode_setKey_ne hkpid]
  · intro r hr
    obtain ⟨re, hlr, hpr⟩ := wf_root_entry h hr
    simp only [AlarmTree.link_past_node, hlr, hpr]

/-- Concrete run of `c2_link_past_node` on the chain `R → R/a → R/a/b`:
linking past `R/a` leaves two nodes, with `R/a/b` now a direct child of the
root. -/
theorem c2_link_past_node_witness :
    WF egTree1 ∧
    (∃ t2, AlarmTree.link_past_node egTree1 "R/a" = .ok t2 ∧
      t2.root = some "R" ∧
      t2.nodes.length = 2 ∧
      lookupNode t2.nodes "R/a" = none ∧
      lookupNode t2.nodes "R" = some ⟨ANode.baseNode "R" "R" 0, none, ["R/a/b"]⟩ ∧
      lookupNode t2.nodes "R/a/b" = some ⟨egGroup "R/a/b" "b" 0, some "R", []⟩) := by
  have h : WF egTree1 := by unfold WF; decide
  obtain ⟨t2, hrun, hroot, hlen, hnone, hpid, hchild, -⟩ :=
    (c2_link_past_node egTree1 h).1 "R/a"
      ⟨egGroup "R/a" "a" 0, some "R", ["R/a/b"]⟩ "R"
      ⟨ANode.baseNode "R" "R" 0, none, ["R/a"]⟩ (by decide) rfl (by decide)
  refine ⟨h, t2, hrun, hroot, hlen, hnone, hpid, ?_⟩
  exact hchild "R/a/b" ⟨egGroup "R/a/b" "b" 0, some "R/a", []⟩ (by decide) (by decide)

/-! ## Lemmas for node creation -/

section CreateLemmas

theorem string_append_cancel {p1 p2 s : String} (h : p1 ++ s = p2 ++ s) :
    p1 = p2 := by
  have hd : p1.data ++ s.data = p2.data ++ s.data := by
    have h2 := congrArg String.data h
    simpa [String.data_append] using h2
  have hlen : p1.data.length = p2.data.length := by
    have h2 := congrArg List.length hd
    simp only [List.length_append] at h2
    omega
  exact String.ext (List.append_inj hd hlen).1

theorem path_inj {p1 p2 name : String}
    (h : p1 ++ "/" ++ name = p2 ++ "/" ++ name) : p1 = p2 :=
  string_append_cancel (string_append_cancel h)

/-- Successful `create_node` under an existing parent with a fresh computed
identifier: the produced node and tree, explicitly. -/
theorem create_node_ok {t : AlarmTree} {pid name : String} {sk : Int} {pe : TreeEntry}
    (hpe : lookupNode t.nodes pid = some pe)
    (hnew : (pid ++ "/" ++ name) ∉ keysOf t.nodes) :
    AlarmTree.create_node t name (some pid) none sk = .ok
      ({ nodes := setKey (t.nodes ++ [(pid ++ "/" ++ name,
            ⟨egGroup (pid ++ "/" ++ name) name sk, some pid, []⟩)]) pid
            ⟨pe.node, pe.parentId, pe.children ++ [pid ++ "/" ++ name]⟩,
         root := t.root }, egGroup (pid ++ "/" ++ name) name sk) := by
  have hn : lookupNode t.nodes (pid ++ "/" ++ name) = none :=
    lookupNode_eq_none_iff.mpr hnew
  simp only [AlarmTree.create_node, AlarmTree.add_node, egGroup, Option.getD, hn,
    Option.isSome_none, Bool.false_eq_true, if_false, hpe]
  rfl

end CreateLemmas

/-! ## Claim C3: same name under different parents; duplicate identifiers -/

/-- **C3** (confirmed): creating two groups with the same `name` under
different existing parents succeeds — the computed identifiers
`parent ++ "/" ++ name` differ because `++ "/" ++ name` is injective — while
creating a node whose computed identifier is already a key fails with the
duplicate error; the error is raised before any mutation in the source, and
in this model an `error` result carries no tree at all, so nothing is
overwritten. -/
theorem c3_create_node (t : AlarmTree) :
    (∀ (name p1 p2 : String) (sk1 sk2 : Int),
      p1 ∈ keysOf t.nodes → p2 ∈ keysOf t.nodes → p1 ≠ p2 →
      (p1 ++ "/" ++ name) ∉ keysOf t.nodes →
      (p2 ++ "/" ++ name) ∉ keysOf t.nodes →
      ∃ t1 t2,
        AlarmTree.create_node t name (some p1) none sk1
          = .ok (t1, egGroup (p1 ++ "/" ++ name) name sk1) ∧
        AlarmTree.create_node t1 name (some p2) none sk2
          = .ok (t2, egGroup (p2 ++ "/" ++ name) name sk2) ∧
        (egGroup (p1 ++ "/" ++ name) name sk1).identifier
          ≠ (egGroup (p2 ++ "/" ++ name) name sk2).identifier) ∧
    (∀ (name pid : String) (tag : Option String) (sk : Int),
      (pid ++ "/" ++ name) ∈ keysOf t.nodes →
      AlarmTree.create_node t name (some pid) tag sk
        = .error (.dup (pid ++ "/" ++ name))) := by
  constructor
  · intro name p1 p2 sk1 sk2 hp1 hp2 hne hid1 hid2
    obtain ⟨pe1, hpe1⟩ := lookupNode_exists_of_mem hp1
    have hstep1 := @create_node_ok t p1 name sk1 pe1 hpe1 hid1
    have hkeys1 : keysOf (setKey (t.nodes ++ [(p1 ++ "/" ++ name,
        ⟨egGroup (p1 ++ "/" ++ name) name sk1, some p1, []⟩)]) p1
        ⟨pe1.node, pe1.parentId, pe1.children ++ [p1 ++ "/" ++ name]⟩)
        = keysOf t.nodes ++ [p1 ++ "/" ++ name] := by
      rw [keysOf_setKey]
      simp [keysOf]
    have hp2mem : p2 ∈ keysOf (setKey (t.nodes ++ [(p1 ++ "/" ++ name,
        ⟨egGroup (p1 ++ "/" ++ name) name sk1, some p1, []⟩)]) p1
        ⟨pe1.node, pe1.parentId, pe1.children ++ [p1 ++ "/" ++ name]⟩) := by
      rw [hkeys1]
      exact List.mem_append_left _ hp2
    obtain ⟨pe2, hpe2⟩ := lookupNode_exists_of_mem hp2mem
    have hid2m : (p2 ++ "/" ++ name) ∉ keysOf (setKey (t.nodes ++ [(p1 ++ "/" ++ name,
        ⟨egGroup (p1 ++ "/" ++ name) name sk1, some p1, []⟩)]) p1
        ⟨pe1.node, pe1.parentId, pe1.children ++ [p1 ++ "/" ++ name]⟩) := by
      rw [hkeys1]
      intro hmem
      rcases List.mem_append.mp hmem with hmem | hmem
      · exact hid2 hmem
      · exact hne (path_inj (List.mem_singleton.mp hmem)).symm
    have hstep2 := @create_node_ok
      { nodes := setKey (t.nodes ++ [(p1 ++ "/" ++ name,
            ⟨egGroup (p1 ++ "/" ++ name) name sk1, some p1, []⟩)]) p1
            ⟨pe1.node, pe1.parentId, pe1.children ++ [p1 ++ "/" ++ name]⟩,
        root := t.root }
      p2 name sk2 pe2 hpe2 hid2m
    refine ⟨_, _, hstep1, hstep2, ?_⟩
    simp only [egGroup, ne_eq]
    intro hh
    exact hne (path_inj hh)
  · intro name pid tag sk hmem
    have hsome : (lookupNode t.nodes (pid ++ "/" ++ name)).isSome = true :=
      lookupNode_isSome_of_mem hmem
    simp [AlarmTree.create_node, AlarmTree.add_node, hsome, Except.map]

/-- Concrete run of `c3_create_node` on `egTree3`: creating `x` under `R/p`
and under `R/q` succeeds with the two distinct identifiers `R/p/x` and
`R/q/x`; creating `p` under `R` collides with the existing key `R/p`. -/
theorem c3_create_node_witness :
    (∃ t1 t2,
      AlarmTree.create_node egTree3 "x" (some "R/p") none 0
        = .ok (t1, egGroup "R/p/x" "x" 0) ∧
      AlarmTree.create_node t1 "x" (some "R/q") none 0
        = .ok (t2, egGroup "R/q/x" "x" 0) ∧
      (egGroup "R/p/x" "x" 0).identifier ≠ (egGroup "R/q/x" "x" 0).identifier) ∧
    AlarmTree.create_node egTree3 "p" (some "R") none 0 = .error (.dup "R/p") := by
  constructor
  · exact (c3_create_node egTree3).1 "x" "R/p" "R/q" 0 0
      (by decide) (by decide) (by decide) (by decide) (by decide)
  · exact (c3_create_node egTree3).2 "p" "R" none 0 (by decide)

/-! ## Claim C10: channel identifiers are the bare PV names -/

/-- **C10** (confirmed): `AlarmPV.__init__` passes `identifier=channelPV`,
so the identifier of a created channel is always the bare PV name,
independent of the parent; hence creating a channel whose PV name is already
a key anywhere in the tree fails with the duplicate error no matter which
parent is given. -/
theorem c10_create_alarm (t : AlarmTree) :
    (∀ (pv : String) (parent : Option String) (sk : Int),
      pv ∈ keysOf t.nodes →
      AlarmTree.create_alarm t pv parent sk = .error (.dup pv)) ∧
    (∀ (pv : String) (parent : Option String) (sk : Int) (t2 : AlarmTree) (n : ANode),
      AlarmTree.create_alarm t pv parent sk = .ok (t2, n) → n.identifier = pv) := by
  constructor
  · intro pv parent sk hmem
    have hsome : (lookupNode t.nodes pv).isSome = true :=
      lookupNode_isSome_of_mem hmem
    simp [AlarmTree.create_alarm, AlarmTree.add_node, hsome, Except.map]
  · intro pv parent sk t2 n hok
    simp only [AlarmTree.create_alarm] at hok
    generalize hP : (match parent with | none => t.root | some p => some p) = P at hok
    cases hadd : AlarmTree.add_node t
        ⟨pv, pv, sk, .pv ⟨pv, "", true, true, true, .num (.int 0), .num (.int 0),
          .str "", [], [], [], []⟩⟩
        P with
    | error e1 =>
      rw [hadd] at hok
      exact absurd hok (by simp [Except.map])
    | ok tt =>
      rw [hadd] at hok
      simp only [Except.map, Except.ok.injEq, Prod.mk.injEq] at hok
      exact hok.2 ▸ rfl

/-- Concrete run of `c10_create_alarm`: `test:ai1` already exists under
`R/p` in `egTreePV`; creating it again under the different parent `R/q`
fails with the duplicate error. -/
theorem c10_create_alarm_witness :
    ("test:ai1" : String) ∈ keysOf egTreePV.nodes ∧
    AlarmTree.create_alarm egTreePV "test:ai1" (some "R/q") 0
      = .error (.dup "test:ai1") := by
  refine ⟨by decide, ?_⟩
  exact (c10_create_alarm egTreePV).1 "test:ai1" (some "R/q") 0 (by decide)

/-! ## Lemmas about children and sorting -/

section ChildrenLemmas

variable {t : AlarmTree}

/-- The `children` lookup loop returns the nodes of exactly the stored child
ids, in stored order: on a well-formed tree the identifiers of the result
are the stored child-id list. -/
theorem mapM_children_ids (h : WF t) :
    ∀ (cs : List String) (l : List ANode),
      cs.mapM (fun cid => match lookupNode t.nodes cid with
        | some ce => Except.ok ce.node
        | none => Except.error (Err.keyError cid)) = .ok l →
      l.map (fun nd => nd.identifier) = cs := by
  intro cs
  induction cs with
  | nil =>
    intro l hl
    have hl2 : ([] : List ANode) = l := Except.ok.inj hl
    rw [← hl2]
    rfl
  | cons c cs ih =>
    intro l hl
    rw [List.mapM_cons] at hl
    cases hlc : lookupNode t.nodes c with
    | none =>
      simp only [hlc] at hl
      exact absurd hl (by simp [Bind.bind, Except.bind])
    | some ce =>
      simp only [hlc] at hl
      cases hrest : cs.mapM (fun cid => match lookupNode t.nodes cid with
        | some ce => Except.ok ce.node
        | none => Except.error (Err.keyError cid)) with
      | error err =>
        simp only [hrest] at hl
        exact absurd hl (by simp [Bind.bind, Except.bind])
      | ok bs =>
        simp only [hrest] at hl
        have hl2 : ce.node :: bs = l := by
          simpa [Bind.bind, Except.bind, pure, Except.pure] using hl
        rw [← hl2, List.map_cons, ih bs hrest, wf_idMatch h hlc]

end ChildrenLemmas

/-! ## Claim C4: child order — stored order vs sortKey order -/

/-- **C4** (corrected): `AlarmTree.children` does **not** sort — it returns
the child nodes in stored (insertion) order, as the counterexample
`c4_children_counterexample` evaluates; the sortKey-ascending, stable,
tie-broken-by-insertion-order ordering the claim describes is the one the
serializers obtain from `sorted(..., key=attrgetter("sortKey"))`. Amended
statement: on a well-formed tree `children` returns the nodes of exactly the
stored child-id list in stored order, and the serializers' `sorted_children`
is sortKey-ascending and stable — filtering it to any one `sortKey` value
gives the same sequence as filtering the `children` result. -/
theorem c4_children_sorted (t : AlarmTree) (h : WF t) (nid : String)
    (e : TreeEntry) (l : List ANode)
    (hm : lookupNode t.nodes nid = some e)
    (hl : AlarmTree.children t nid = .ok l) :
    l.map (fun nd => nd.identifier) = e.children ∧
    ∀ sl, AlarmTree.sorted_children t nid = .ok sl →
      List.Pairwise (fun a b : ANode => a.sortKey ≤ b.sortKey) sl ∧
      ∀ key : Int, sl.filter (fun nd => nd.sortKey == key)
        = l.filter (fun nd => nd.sortKey == key) := by
  have hl2 : e.children.mapM (fun cid => match lookupNode t.nodes cid with
      | some ce => Except.ok ce.node
      | none => Except.error (Err.keyError cid)) = .ok l := by
    simp only [AlarmTree.children, hm] at hl
    exact hl
  constructor
  · exact mapM_children_ids h e.children l hl2
  · intro sl hsl
    have hsl2 : sl = l.insertionSort (fun a b => a.sortKey ≤ b.sortKey) := by
      simp only [AlarmTree.sorted_children, hl] at hsl
      have hred : (Except.map
          (fun l2 : List ANode => l2.insertionSort (fun a b => a.sortKey ≤ b.sortKey))
          (Except.ok l) : Except Err (List ANode))
          = .ok (l.insertionSort (fun a b => a.sortKey ≤ b.sortKey)) := rfl
      rw [hred] at hsl
      exact (Except.ok.inj hsl).symm
    subst hsl2
    haveI : IsTotal ANode (fun a b => a.sortKey ≤ b.sortKey) :=
      ⟨fun a b => Int.le_total _ _⟩
    haveI : IsTrans ANode (fun a b => a.sortKey ≤ b.sortKey) :=
      ⟨fun a b c h1 h2 => Int.le_trans h1 h2⟩
    constructor
    · exact List.sorted_insertionSort _ l
    · intro key
      have hkeysc : ∀ nd ∈ l.filter (fun nd => nd.sortKey == key),
          nd.sortKey = key := by
        intro nd hnd
        have h2 := List.of_mem_filter hnd
        simpa using h2
      have hcpair : (l.filter (fun nd => nd.sortKey == key)).Pairwise
          (fun a b : ANode => a.sortKey ≤ b.sortKey) := by
        apply List.pairwise_of_forall_mem_list
        intro a ha b hb
        rw [hkeysc a ha, hkeysc b hb]
      have hsubl : List.Sublist (l.filter (fun nd => nd.sortKey == key))
          (l.insertionSort (fun a b => a.sortKey ≤ b.sortKey)) :=
        List.sublist_insertionSort hcpair (List.filter_sublist l)
      have hsubl2 : List.Sublist
          ((l.filter (fun nd => nd.sortKey == key)).filter
            (fun nd => nd.sortKey == key))
          ((l.insertionSort (fun a b => a.sortKey ≤ b.sortKey)).filter
            (fun nd => nd.sortKey == key)) := hsubl.filter _
      rw [List.filter_eq_self.mpr (fun a ha => by simpa using hkeysc a ha)] at hsubl2
      have hperm : List.Perm
          ((l.insertionSort (fun a b => a.sortKey ≤ b.sortKey)).filter
            (fun nd => nd.sortKey == key))
          (l.filter (fun nd => nd.sortKey == key)) :=
        (List.perm_insertionSort _ l).filter _
      exact (hsubl2.eq_of_length hperm.length_eq.symm).symm

/-- **C4** counterexample: in `egTree2` the children of the root were
inserted with sort keys `2` then `1`; `children` returns them in that stored
order, which is not sortKey-ascending. -/
theorem c4_children_counterexample :
    AlarmTree.children egTree2 "Test"
      = .ok [egGroup "Test/b" "b" 2, egGroup "Test/c" "c" 1] ∧
    ¬ List.Pairwise (fun a b : ANode => a.sortKey ≤ b.sortKey)
        [egGroup "Test/b" "b" 2, egGroup "Test/c" "c" 1] := by
  constructor
  · rfl
  · intro hp
    have h2 := (List.pairwise_cons.mp hp).1 (egGroup "Test/c" "c" 1) (by simp)
    have h3 : ¬ ((2 : Int) ≤ 1) := by decide
    exact h3 h2

/-- Concrete run of `c4_children_sorted` on `egTree2`: stored order is
`[sortKey 2, sortKey 1]`, the serializer order is `[sortKey 1, sortKey 2]`,
and filtering either to `sortKey = 2` gives the same one-element list. -/
theorem c4_children_sorted_witness :
    WF egTree2 ∧
    AlarmTree.children egTree2 "Test"
      = .ok [egGroup "Test/b" "b" 2, egGroup "Test/c" "c" 1] ∧
    [egGroup "Test/b" "b" 2, egGroup "Test/c" "c" 1].map (fun nd => nd.identifier)
      = ["Test/b", "Test/c"] ∧
    AlarmTree.sorted_children egTree2 "Test"
      = .ok [egGroup "Test/c" "c" 1, egGroup "Test/b" "b" 2] ∧
    List.Pairwise (fun a b : ANode => a.sortKey ≤ b.sortKey)
      [egGroup "Test/c" "c" 1, egGroup "Test/b" "b" 2] ∧
    [egGroup "Test/c" "c" 1, egGroup "Test/b" "b" 2].filter (fun nd => nd.sortKey == 2)
      = [egGroup "Test/b" "b" 2, egGroup "Test/c" "c" 1].filter (fun nd => nd.sortKey == 2) := by
  have h : WF egTree2 := by unfold WF; decide
  have hch : AlarmTree.children egTree2 "Test"
      = .ok [egGroup "Test/b" "b" 2, egGroup "Test/c" "c" 1] := by rfl
  have hmain := c4_children_sorted egTree2 h "Test"
    ⟨ANode.baseNode "Test" "Test" 0, none, ["Test/b", "Test/c"]⟩
    [egGroup "Test/b" "b" 2, egGroup "Test/c" "c" 1] (by decide) hch
  have hsl : AlarmTree.sorted_children egTree2 "Test"
      = .ok [egGroup "Test/c" "c" 1, egGroup "Test/b" "b" 2] := by rfl
  have hpart := hmain.2 [egGroup "Test/c" "c" 1, egGroup "Test/b" "b" 2] hsl
  exact ⟨h, hch, hmain.1, hsl, hpart.1, hpart.2 2⟩

/-! ## Claim C5: error recovery of the parse loop -/

/-- **C5** (corrected): the parse loop recovers only from a `KeyError` — an
unknown keyword is logged and the line skipped with the whole state
unchanged — but a known keyword with malformed fields is *not* generally
recovered: `process_alarmcount` unpacks `alhArgs.split()` into exactly two
names, and the resulting `ValueError` is uncaught, so a single malformed
`$ALARMCOUNTFILTER` line aborts the whole parse
(counterexample `c5_parse_counterexample`). -/
theorem c5_parse_error_handling :
    (∀ (st : ParserState) (line kw : String),
      st.contData = none →
      ((line ++ "\n").data.all isPyWhite) = false →
      ((line ++ "\n").data.head? == some '#') = false →
      kw = (match pySplitMax1 (pyStrip line) with
            | [k, _] => k
            | [k] => k
            | _ => pyStrip line) →
      containsSubstr "$FORCEPV_CALC" kw = false →
      dispatchOf kw = none →
      parseStep st line = .ok st) ∧
    parse_alh_lines ["GROUP NULL G", "$ALARMCOUNTFILTER 5"] "Accelerator"
      = .error .valueErr := by
  constructor
  · intro st line kw hcont hwhite hhash hkw hfc hdisp
    obtain ⟨tr, cur, cd, nu⟩ := st
    have hcd : cd = none := hcont
    subst hcd
    simp only [parseStep, hwhite, Bool.false_eq_true, if_false, hhash]
    rcases hsplit : pySplitMax1 (pyStrip line) with _ | ⟨k, _ | ⟨a, _ | ⟨b, tl⟩⟩⟩
    · simp only [hsplit] at hkw
      subst hkw
      simp only [hsplit, hfc, Bool.false_eq_true, if_false, hdisp]
    · simp only [hsplit] at hkw
      subst hkw
      simp only [hsplit, hfc, Bool.false_eq_true, if_false, hdisp]
    · simp only [hsplit] at hkw
      subst hkw
      simp only [hsplit, hfc, Bool.false_eq_true, if_false, hdisp]
    · simp only [hsplit] at hkw
      subst hkw
      simp only [hsplit, hfc, Bool.false_eq_true, if_false, hdisp]
  · rfl

/-- **C5** counterexample: a parse containing the single malformed line
`$ALARMCOUNTFILTER 5` (one field instead of two) does not complete. -/
theorem c5_parse_counterexample :
    (parse_alh_lines ["$ALARMCOUNTFILTER 5"] "Accelerator").isOk = false := by
  rfl

/-- Concrete run of `c5_parse_error_handling`: the unknown keyword `FOO`
leaves the freshly initialised state untouched. -/
theorem c5_parse_error_handling_witness :
    parseStep { tree := AlarmTree.init "Accelerator", current := "Accelerator",
                contData := none, nextUuid := 0 } "FOO bar"
      = .ok { tree := AlarmTree.init "Accelerator", current := "Accelerator",
              contData := none, nextUuid := 0 } := by
  exact c5_parse_error_handling.1
    { tree := AlarmTree.init "Accelerator", current := "Accelerator",
      contData := none, nextUuid := 0 } "FOO bar" "FOO"
    rfl (by decide) (by decide) (by decide) (by decide) rfl

/-! ## Claim C6: the worked FORCEPV_CALC example -/

/-- **C6** (confirmed): parsing the eight-line legacy input produces a tree
in which a channel under the group tagged `Group` exists, and every channel
whose parent is tagged `Group` carries a filter object whose phoebus target
string is exactly `"(test:ai3<4) != 1"`.  (The `$ALIAS Group Name` line
renames the group: its name becomes the alias text `Group Name`, its tag
keeps the legacy name `Group`, which is what `CHANNEL Group …` looks up.) -/
theorem c6_group_filter_target :
    (parse_alh_lines
      ["GROUP NULL Group", "$ALIAS Group Name", "$FORCEPV CALC -D-T- 1 NE",
       "$FORCEPV_CALC A<B", "$FORCEPV_CALC_A test:ai3", "$FORCEPV_CALC_B 4",
       "", "CHANNEL Group test:ai1 ---T-"] "Accelerator").map
      (fun st =>
        st.tree.nodes.any (fun kv =>
          (match kv.2.node.kind with | .pv _ => true | _ => false) &&
          (match kv.2.parentId.bind (lookupNode st.tree.nodes) with
           | some pe => pe.node.tag == "Group"
           | none => false)) &&
        st.tree.nodes.all (fun kv =>
          !((match kv.2.node.kind with | .pv _ => true | _ => false) &&
            (match kv.2.parentId.bind (lookupNode st.tree.nodes) with
             | some pe => pe.node.tag == "Group"
             | none => false)) ||
          (match kv.2.node.getFilter with
           | some (.obj f) => AlarmFilter.get_phoebus_filter f == "(test:ai3<4) != 1"
           | _ => false))) = .ok true := by
  rfl

/-! ## Lemmas for the alias rename -/

section AliasLemmas

variable {t : AlarmTree}

/-- The subtree of a childless node is the node alone. -/
theorem inSub_leaf (h : WF t) {c : String} {e : TreeEntry}
    (hm : lookupNode t.nodes c = some e) (hleaf : e.children = []) :
    ∀ k, inSubB t.nodes c k = (k == c) := by
  intro k
  by_cases hkc : k = c
  · subst hkc
    rw [inSub_self]
    simp
  · cases hic : inSubB t.nodes c k with
    | true =>
      exfalso
      rcases (inSub_decomp h hm k).mp hic with h1 | h1
      · exact hkc h1
      · rw [hleaf] at h1
        simp at h1
    | false =>
      simp [hkc]

theorem path_ne_parent (pid s : String) : pid ++ "/" ++ s ≠ pid := by
  intro hh
  have h2 : (pid ++ "/" ++ s).data.length = pid.data.length := by rw [hh]
  rw [String.data_append, String.data_append, List.length_append,
      List.length_append] at h2
  have h3 : ("/" : String).data.length = 1 := rfl
  omega

/-- `create_node_ok` with an explicit tag (used by the alias rename, which
passes the old name as the tag). -/
theorem create_node_okT {t : AlarmTree} {pid name : String} {tag : Option String}
    {sk : Int} {pe : TreeEntry}
    (hpe : lookupNode t.nodes pid = some pe)
    (hnew : (pid ++ "/" ++ name) ∉ keysOf t.nodes) :
    AlarmTree.create_node t name (some pid) tag sk = .ok
      ({ nodes := setKey (t.nodes ++ [(pid ++ "/" ++ name,
            ⟨⟨pid ++ "/" ++ name, tag.getD name, sk,
              .group ⟨name, [], [], [], [], none, none, none, none⟩⟩, some pid, []⟩)]) pid
            ⟨pe.node, pe.parentId, pe.children ++ [pid ++ "/" ++ name]⟩,
         root := t.root },
       ⟨pid ++ "/" ++ name, tag.getD name, sk,
        .group ⟨name, [], [], [], [], none, none, none, none⟩⟩) := by
  have hn : lookupNode t.nodes (pid ++ "/" ++ name) = none :=
    lookupNode_eq_none_iff.mpr hnew
  simp only [AlarmTree.create_node, AlarmTree.add_node, hn,
    Option.isSome_none, Bool.false_eq_true, if_false, hpe]
  rfl

end AliasLemmas

/-! ## Claim C9: the three behaviours of the ALIAS handler -/

/-- **C9** (confirmed): `process_alias` on a channel sets only the
description; on a group whose name differs from the alias text it refuses
(log only, no mutation) when the group has children; and on a childless
such group it replaces the node — the new node sits under the same parent
with name (displayed in phoebus) the alias, tag (the legacy name) the old
name, the four attachment lists carried over, every other entry untouched.
-/
theorem c9_process_alias (t : AlarmTree) (h : WF t) (cur alhArgs u : String)
    (e : TreeEntry) (hm : lookupNode t.nodes cur = some e) :
    (∀ p, e.node.kind = .pv p →
      process_alias alhArgs t cur u = .ok
        ({ t with nodes := (setKey t.nodes cur
            ⟨{ e.node with kind := .pv { p with desc := pyStrip alhArgs } },
             e.parentId, e.children⟩) }, cur, none)) ∧
    (∀ g, e.node.kind = .group g → pyStrip alhArgs ≠ g.name → e.children ≠ [] →
      process_alias alhArgs t cur u = .ok (t, cur, none)) ∧
    (∀ g pid pe, e.node.kind = .group g → pyStrip alhArgs ≠ g.name →
      e.children = [] → e.parentId = some pid →
      lookupNode t.nodes pid = some pe → t.root ≠ some cur →
      (pid ++ "/" ++ pyStrip alhArgs) ∉ keysOf t.nodes →
      ∃ t3,
        process_alias alhArgs t cur u
          = .ok (t3, pid ++ "/" ++ pyStrip alhArgs, none) ∧
        t3.root = t.root ∧
        lookupNode t3.nodes cur = none ∧
        lookupNode t3.nodes (pid ++ "/" ++ pyStrip alhArgs)
          = some ⟨⟨pid ++ "/" ++ pyStrip alhArgs, g.name, 0,
                   .group ⟨pyStrip alhArgs, g.guidances, g.commands, g.displays,
                           g.actions, none, none, none, none⟩⟩, some pid, []⟩ ∧
        lookupNode t3.nodes pid
          = some ⟨pe.node, pe.parentId,
                  pe.children.erase cur ++ [pid ++ "/" ++ pyStrip alhArgs]⟩ ∧
        (∀ k, k ≠ cur → k ≠ pid → k ≠ pid ++ "/" ++ pyStrip alhArgs →
          lookupNode t3.nodes k = lookupNode t.nodes k)) := by
  refine ⟨?_, ?_, ?_⟩
  · intro p hp
    simp only [process_alias, hm, hp]
  · intro g hg hnames hch
    have hbeq : (g.name == pyStrip alhArgs) = false := by
      simp only [beq_eq_false_iff_ne, ne_eq]
      exact fun hh => hnames hh.symm
    have hchb : e.children.isEmpty = false := by
      cases hcc : e.children with
      | nil => exact absurd hcc hch
      | cons a rest => rfl
    simp only [process_alias, hm, hg, hbeq, Bool.false_eq_true, if_false, hchb,
      Bool.not_false, if_true]
  · intro g pid pe hg hnames hleaf hpid hpe hroot hnew
    have hbeq : (g.name == pyStrip alhArgs) = false := by
      simp only [beq_eq_false_iff_ne, ne_eq]
      exact fun hh => hnames hh.symm
    have hchb : e.children.isEmpty = true := by
      rw [hleaf]
      rfl
    have hrm := remove_node_ok t h hroot hm hpid hpe
    have hM2 : (setKey t.nodes pid ⟨pe.node, pe.parentId, pe.children.erase cur⟩).filter
        (fun kv => !(inSubB t.nodes cur kv.1))
        = eraseKey (setKey t.nodes pid ⟨pe.node, pe.parentId, pe.children.erase cur⟩) cur := by
      unfold eraseKey
      apply List.filter_congr
      intro kv _
      rw [inSub_leaf h hm hleaf kv.1]
      rfl
    rw [hM2] at hrm
    have hpid_ne_cur : pid ≠ cur := by
      have hlt := wf_parent_lt h hm hpid
      intro hh
      rw [hh] at hlt
      omega
    have hpe2 : lookupNode
        (eraseKey (setKey t.nodes pid ⟨pe.node, pe.parentId, pe.children.erase cur⟩) cur) pid
        = some ⟨pe.node, pe.parentId, pe.children.erase cur⟩ := by
      rw [lookupNode_eraseKey_ne hpid_ne_cur,
          lookupNode_setKey_self (mem_keysOf_of_lookup hpe)]
    have hkeysM2 : ∀ k1, k1 ∈ keysOf
        (eraseKey (setKey t.nodes pid ⟨pe.node, pe.parentId, pe.children.erase cur⟩) cur) →
        k1 ∈ keysOf t.nodes := by
      intro k1 hk1
      have hh : keysOf (eraseKey (setKey t.nodes pid
          ⟨pe.node, pe.parentId, pe.children.erase cur⟩) cur)
          = (keysOf (setKey t.nodes pid ⟨pe.node, pe.parentId, pe.children.erase cur⟩)).filter
            (fun x => x != cur) :=
        @keysOf_filterKey _ (fun x => x != cur)
      rw [hh, keysOf_setKey] at hk1
      exact List.mem_of_mem_filter hk1
    have hnew2 : (pid ++ "/" ++ pyStrip alhArgs) ∉ keysOf
        (eraseKey (setKey t.nodes pid ⟨pe.node, pe.parentId, pe.children.erase cur⟩) cur) :=
      fun hk => hnew (hkeysM2 _ hk)
    have hc := @create_node_okT
      { nodes := eraseKey (setKey t.nodes pid
          ⟨pe.node, pe.parentId, pe.children.erase cur⟩) cur, root := t.root }
      pid (pyStrip alhArgs) (some g.name) 0
      ⟨pe.node, pe.parentId, pe.children.erase cur⟩ hpe2 hnew2
    have hnewid_ne_pid : pid ++ "/" ++ pyStrip alhArgs ≠ pid := path_ne_parent _ _
    have hcur_mem : cur ∈ keysOf t.nodes := mem_keysOf_of_lookup hm
    have hcur_ne_newid : cur ≠ pid ++ "/" ++ pyStrip alhArgs := by
      intro hh
      rw [hh] at hcur_mem
      exact hnew hcur_mem
    -- the fresh entry in the created tree
    have hlook3 : lookupNode
        (setKey ((eraseKey (setKey t.nodes pid ⟨pe.node, pe.parentId, pe.children.erase cur⟩) cur)
            ++ [(pid ++ "/" ++ pyStrip alhArgs,
                 ⟨⟨pid ++ "/" ++ pyStrip alhArgs, g.name, 0,
                   .group ⟨pyStrip alhArgs, [], [], [], [], none, none, none, none⟩⟩,
                  some pid, []⟩)]) pid
          ⟨pe.node, pe.parentId, pe.children.erase cur ++ [pid ++ "/" ++ pyStrip alhArgs]⟩)
        (pid ++ "/" ++ pyStrip alhArgs)
        = some ⟨⟨pid ++ "/" ++ pyStrip alhArgs, g.name, 0,
                 .group ⟨pyStrip alhArgs, [], [], [], [], none, none, none, none⟩⟩,
                some pid, []⟩ := by
      rw [lookupNode_setKey_ne hnewid_ne_pid, lookupNode_append,
          lookupNode_eq_none_iff.mpr hnew2, Option.none_or, lookupNode_cons]
      rw [if_pos rfl]
    -- assemble the run of process_alias
    refine ⟨⟨setKey
          (setKey
            ((eraseKey (setKey t.nodes pid ⟨pe.node, pe.parentId, pe.children.erase cur⟩) cur)
              ++ [(pid ++ "/" ++ pyStrip alhArgs,
                   ⟨⟨pid ++ "/" ++ pyStrip alhArgs, g.name, 0,
                     .group ⟨pyStrip alhArgs, [], [], [], [], none, none, none, none⟩⟩,
                    some pid, []⟩)])
            pid ⟨pe.node, pe.parentId, pe.children.erase cur ++ [pid ++ "/" ++ pyStrip alhArgs]⟩)
          (pid ++ "/" ++ pyStrip alhArgs)
          ⟨⟨pid ++ "/" ++ pyStrip alhArgs, g.name, 0,
            .group ⟨pyStrip alhArgs, g.guidances, g.commands, g.displays, g.actions,
                    none, none, none, none⟩⟩, some pid, []⟩,
        t.root⟩, ?_, rfl, ?_, ?_, ?_, ?_⟩
    · simp only [process_alias, hm, hg, hbeq, Bool.false_eq_true, if_false, hchb,
        Bool.not_true, hpid, hrm, hc, Option.getD_some, hlook3]
    · show lookupNode (setKey _ _ _) cur = none
      rw [lookupNode_setKey_ne hcur_ne_newid, lookupNode_setKey_ne hpid_ne_cur.symm,
          lookupNode_append, lookupNode_eraseKey_self, Option.none_or, lookupNode_cons]
      rw [if_neg (fun hh => hcur_ne_newid hh.symm)]
      rfl
    · show lookupNode (setKey _ _ _) (pid ++ "/" ++ pyStrip alhArgs) = _
      have hmem3 : (pid ++ "/" ++ pyStrip alhArgs) ∈ keysOf
          ((eraseKey (setKey t.nodes pid ⟨pe.node, pe.parentId, pe.children.erase cur⟩) cur)
            ++ [(pid ++ "/" ++ pyStrip alhArgs,
                 ⟨⟨pid ++ "/" ++ pyStrip alhArgs, g.name, 0,
                   .group ⟨pyStrip alhArgs, [], [], [], [], none, none, none, none⟩⟩,
                  some pid, []⟩)]) := by
        show _ ∈ keysOf _
        simp [keysOf]
      have hmem4 : (pid ++ "/" ++ pyStrip alhArgs) ∈ keysOf
          (setKey ((eraseKey (setKey t.nodes pid ⟨pe.node, pe.parentId, pe.children.erase cur⟩) cur)
            ++ [(pid ++ "/" ++ pyStrip alhArgs,
                 ⟨⟨pid ++ "/" ++ pyStrip alhArgs, g.name, 0,
                   .group ⟨pyStrip alhArgs, [], [], [], [], none, none, none, none⟩⟩,
                  some pid, []⟩)]) pid
            ⟨pe.node, pe.parentId, pe.children.erase cur ++ [pid ++ "/" ++ pyStrip alhArgs]⟩) := by
        rw [keysOf_setKey]
        exact hmem3
      rw [lookupNode_setKey_self hmem4]
    · show lookupNode (setKey _ _ _) pid = _
      have hpidmem : pid ∈ keysOf
          ((eraseKey (setKey t.nodes pid ⟨pe.node, pe.parentId, pe.children.erase cur⟩) cur)
            ++ [(pid ++ "/" ++ pyStrip alhArgs,
                 ⟨⟨pid ++ "/" ++ pyStrip alhArgs, g.name, 0,
                   .group ⟨pyStrip alhArgs, [], [], [], [], none, none, none, none⟩⟩,
                  some pid, []⟩)]) := by
        have h9 := mem_keysOf_of_lookup hpe2
        simp only [keysOf, List.map_append] at h9 ⊢
        exact List.mem_append_left _ h9
      rw [lookupNode_setKey_ne hnewid_ne_pid.symm,
          lookupNode_setKey_self hpidmem]
    · intro k hkcur hkpid hknew
      show lookupNode (setKey _ _ _) k = _
      rw [lookupNode_setKey_ne hknew, lookupNode_setKey_ne hkpid,
          lookupNode_append, lookupNode_eraseKey_ne hkcur,
          lookupNode_setKey_ne hkpid, lookupNode_cons]
      rw [if_neg (fun hh => hknew hh.symm)]
      simp [lookupNode_nil]

/-- Concrete run of `c9_process_alias` (the rename branch) on `egTree3`:
aliasing the childless group `R/p` to `NewName` replaces it by
`R/NewName`, tagged with the legacy name `p`, under the same parent. -/
theorem c9_process_alias_witness :
    WF egTree3 ∧
    (∃ t3, process_alias "NewName" egTree3 "R/p" "u0"
        = .ok (t3, "R" ++ "/" ++ pyStrip "NewName", none) ∧
      lookupNode t3.nodes "R/p" = none ∧
      lookupNode t3.nodes ("R" ++ "/" ++ pyStrip "NewName")
        = some ⟨⟨"R" ++ "/" ++ pyStrip "NewName", "p", 0,
                 .group ⟨pyStrip "NewName", [], [], [], [], none, none, none, none⟩⟩,
                some "R", []⟩ ∧
      lookupNode t3.nodes "R"
        = some ⟨ANode.baseNode "R" "R" 0, none,
                ["R/q", "R" ++ "/" ++ pyStrip "NewName"]⟩) := by
  have h : WF egTree3 := by unfold WF; decide
  obtain ⟨t3, hrun, -, hcur, hnewl, hpidl, -⟩ :=
    (c9_process_alias egTree3 h "R/p" "NewName" "u0"
      ⟨egGroup "R/p" "p" 0, some "R", []⟩ (by decide)).2.2
      ⟨"p", [], [], [], [], none, none, none, none⟩ "R"
      ⟨ANode.baseNode "R" "R" 0, none, ["R/p", "R/q"]⟩
      rfl (by decide) rfl rfl (by decide) (by decide) (by decide)
  exact ⟨h, t3, hrun, hcur, hnewl, hpidl⟩

end Phoebus
